import Mathlib

/-!
Verification of the symbolic LCA core (`lca.py`): expression building
(`actToExpression`), symbol allocation, compiled-function batch evaluation
(`postMultiLCAAlgebric`) and multi-model orchestration (`multiLCAAlgebric`).

Machine integers do not occur: amounts and impact values are modelled as `ℚ`
(Python numbers); strings are Lean `String`s.
-/

namespace LcaAlg

/-! ### Decimal rendering of naturals (Python `str(i)`, used for slug suffixes) -/

/-- Character for a single decimal digit (`0 ≤ d ≤ 9` in use). -/
def digitChar (d : ℕ) : Char := Char.ofNat (48 + d)

/-- Little-endian decimal digits of `n`, driven by a structural fuel
(`fuel ≥ n` suffices). -/
def natDigits : ℕ → ℕ → List ℕ
  | 0, _ => []
  | fuel + 1, n => if n = 0 then [] else n % 10 :: natDigits fuel (n / 10)

/-- Decimal string of a natural number, as Python's `str` renders positive
integers (we only apply it to `n ≥ 1`). -/
def natStr (n : ℕ) : String := ⟨((natDigits n n).reverse.map digitChar)⟩

theorem natDigits_eq_digits : ∀ fuel n, n ≤ fuel → natDigits fuel n = Nat.digits 10 n := by
  intro fuel
  induction fuel with
  | zero => intro n hn; interval_cases n; simp [natDigits]
  | succ f ih =>
    intro n hn
    by_cases h0 : n = 0
    · simp [natDigits, h0]
    · rw [natDigits, if_neg h0, Nat.digits_def' (by norm_num : 1 < 10) (Nat.pos_of_ne_zero h0),
        ih (n / 10) ?_]
      have := Nat.div_lt_self (Nat.pos_of_ne_zero h0) (by norm_num : 1 < 10)
      omega

theorem digitChar_injOn : ∀ d1 < 10, ∀ d2 < 10, digitChar d1 = digitChar d2 → d1 = d2 := by
  decide

theorem map_digitChar_injOn : ∀ l1 l2 : List ℕ, (∀ x ∈ l1, x < 10) → (∀ x ∈ l2, x < 10) →
    l1.map digitChar = l2.map digitChar → l1 = l2 := by
  intro l1
  induction l1 with
  | nil => intro l2 _ _ h; cases l2 <;> simp_all
  | cons a l ih =>
    intro l2 h1 h2 h
    cases l2 with
    | nil => simp_all
    | cons b l' =>
      simp only [List.map_cons, List.cons.injEq] at h
      have hab : a = b := digitChar_injOn a (h1 a (by simp)) b (h2 b (by simp)) h.1
      have := ih l' (fun x hx => h1 x (by simp [hx])) (fun x hx => h2 x (by simp [hx])) h.2
      simp [hab, this]

theorem natStr_injective : Function.Injective natStr := by
  intro m n h
  have hm := natDigits_eq_digits m m le_rfl
  have hn := natDigits_eq_digits n n le_rfl
  unfold natStr at h
  rw [hm, hn] at h
  have hdata : ((Nat.digits 10 m).reverse.map digitChar) = ((Nat.digits 10 n).reverse.map digitChar) := by
    exact congrArg String.data h
  have hrev : (Nat.digits 10 m).reverse = (Nat.digits 10 n).reverse := by
    refine map_digitChar_injOn _ _ ?_ ?_ hdata
    · intro x hx
      exact Nat.digits_lt_base (by norm_num) (List.mem_reverse.mp hx)
    · intro x hx
      exact Nat.digits_lt_base (by norm_num) (List.mem_reverse.mp hx)
  have hdig : Nat.digits 10 m = Nat.digits 10 n := by
    simpa using congrArg List.reverse hrev
  calc m = Nat.ofDigits 10 (Nat.digits 10 m) := (Nat.ofDigits_digits 10 m).symm
    _ = Nat.ofDigits 10 (Nat.digits 10 n) := by rw [hdig]
    _ = n := Nat.ofDigits_digits 10 n

theorem natStr_ne_empty {n : ℕ} (h : n ≠ 0) : natStr n ≠ "" := by
  intro hc
  have hd := congrArg String.data hc
  rw [natStr, natDigits_eq_digits n n le_rfl] at hd
  simp only at hd
  have : Nat.digits 10 n ≠ [] := Nat.digits_ne_nil_iff_ne_zero.mpr h
  rcases hx : Nat.digits 10 n with _ | ⟨d, rest⟩
  · exact this hx
  · rw [hx] at hd
    have : ((d :: rest).reverse.map digitChar).length = 0 := by rw [hd]; rfl
    simp at this

/-! ### Slugification (`_slugify`, line 108: collapse non-alphanumeric runs to `_`) -/

/-- Core of `_slugify`: the boolean records whether we are inside a run of
non-alphanumeric characters already replaced by one underscore. -/
def slugAux : Bool → List Char → List Char
  | _, [] => []
  | inRun, c :: rest =>
    if c.isAlphanum then c :: slugAux false rest
    else if inRun then slugAux true rest
    else '_' :: slugAux true rest

/-- `_slugify(str)`: `re.sub('[^0-9a-zA-Z]+', '_', str)`. -/
def slugify (s : String) : String := ⟨slugAux false s.data⟩

/-! ### Fresh slug allocation (`act_to_symbol`, lines 258–270) -/

/-- The `i`-th candidate tried by the collision loop: the base slug itself,
then `base1`, `base2`, … -/
def slugCand (base : String) : ℕ → String
  | 0 => base
  | i + 1 => base ++ natStr (i + 1)

theorem slugCand_injective (base : String) : Function.Injective (slugCand base) := by
  intro i j h
  match i, j with
  | 0, 0 => rfl
  | 0, j + 1 =>
    exfalso
    have hlen := congrArg String.length h
    rw [slugCand, slugCand, String.length_append] at hlen
    have : (natStr (j + 1)).length ≠ 0 := by
      intro hc
      exact natStr_ne_empty (by omega) (String.ext (List.length_eq_zero.mp hc))
    omega
  | i + 1, 0 =>
    exfalso
    have hlen := congrArg String.length h
    rw [slugCand, slugCand, String.length_append] at hlen
    have : (natStr (i + 1)).length ≠ 0 := by
      intro hc
      exact natStr_ne_empty (by omega) (String.ext (List.length_eq_zero.mp hc))
    omega
  | i + 1, j + 1 =>
    have hdata := congrArg String.data h
    simp only [slugCand, String.data_append] at hdata
    have := List.append_cancel_left hdata
    have := natStr_injective (String.ext this)
    omega

/-- The collision loop of `act_to_symbol`: starting from candidate index `i`,
return the first candidate slug not already used as a symbol.  `fuel`
bounds the search; `taken.length + 1` attempts always suffice. -/
def freshFrom (taken : List String) (base : String) : ℕ → ℕ → String
  | i, 0 => slugCand base i
  | i, fuel + 1 =>
    if slugCand base i ∈ taken then freshFrom taken base (i + 1) fuel else slugCand base i

/-- `act_to_symbol`'s slug choice: the first of `base`, `base1`, `base2`, …
that is not already an allocated symbol. -/
def freshSlug (taken : List String) (base : String) : String :=
  freshFrom taken base 0 (taken.length + 1)

theorem freshFrom_spec (taken : List String) (base : String) :
    ∀ fuel i, (∃ j, i ≤ j ∧ j < i + fuel + 1 ∧ slugCand base j ∉ taken) →
      freshFrom taken base i fuel ∉ taken := by
  intro fuel
  induction fuel with
  | zero =>
    intro i ⟨j, hij, hlt, hfree⟩
    have : j = i := by omega
    subst this
    simpa [freshFrom] using hfree
  | succ f ih =>
    intro i ⟨j, hij, hlt, hfree⟩
    rw [freshFrom]
    by_cases hmem : slugCand base i ∈ taken
    · rw [if_pos hmem]
      refine ih (i + 1) ⟨j, ?_, by omega, hfree⟩
      rcases Nat.eq_or_lt_of_le hij with heq | hlt'
      · exact absurd (heq ▸ hmem) hfree
      · omega
    · rwa [if_neg hmem]

theorem freshSlug_not_mem (taken : List String) (base : String) :
    freshSlug taken base ∉ taken := by
  refine freshFrom_spec taken base (taken.length + 1) 0 ?_
  by_contra hall
  push_neg at hall
  have hmem : ∀ j ≤ taken.length + 1, slugCand base j ∈ taken := by
    intro j hj
    exact hall j (by omega) (by omega)
  have hsub : (Finset.range (taken.length + 2)).image (slugCand base) ⊆ taken.toFinset := by
    intro s hs
    rcases Finset.mem_image.mp hs with ⟨j, hj, rfl⟩
    rw [List.mem_toFinset]
    exact hmem j (by simpa [Nat.lt_succ_iff] using Finset.mem_range.mp hj)
  have hcard : taken.length + 2 ≤ taken.toFinset.card := by
    calc taken.length + 2 = (Finset.range (taken.length + 2)).card := (Finset.card_range _).symm
      _ = ((Finset.range (taken.length + 2)).image (slugCand base)).card :=
          (Finset.card_image_of_injective _ (slugCand_injective base)).symm
      _ ≤ taken.toFinset.card := Finset.card_le_card hsub
  have := taken.toFinset_card_le
  omega

/-! ### Symbolic expressions

Sympy expression trees, restricted to the operations `rec_func` performs:
`res = 0`, `res += formula * act_expr`, `res / outputAmount`.  Symbols are
split into model parameters (free variables of exchange formulas) and activity
symbols (allocated slugs of background activities).  The smart constructors
reproduce sympy's automatic numeric simplification on these operations
(constant folding, `0`/`1` units, `0` absorption in products). -/

inductive SExpr where
  | num (q : ℚ)
  | param (name : String)
  | actSym (slug : String)
  | add (a b : SExpr)
  | mul (a b : SExpr)
  | div (a b : SExpr)
  deriving DecidableEq, Repr

namespace SExpr

/-- Sympy `Add` on the shapes we build: folds numeric literals, drops zero. -/
def sadd : SExpr → SExpr → SExpr
  | num p, num q => num (p + q)
  | num p, b => if p = 0 then b else add (num p) b
  | a, num q => if q = 0 then a else add a (num q)
  | a, b => add a b

/-- Sympy `Mul` on the shapes we build: folds numeric literals, `0` absorbs,
`1` is a unit. -/
def smul : SExpr → SExpr → SExpr
  | num p, num q => num (p * q)
  | num p, b => if p = 0 then num 0 else if p = 1 then b else mul (num p) b
  | a, num q => if q = 0 then num 0 else if q = 1 then a else mul a (num q)
  | a, b => mul a b

/-- Sympy division as used for the output-normalization divisor. -/
def sdiv : SExpr → SExpr → SExpr
  | num p, num q => if q = 0 then div (num p) (num q) else num (p / q)
  | a, num q => if q = 1 then a else div a (num q)
  | a, b => div a b

/-- Activity symbols occurring in an expression (the `free_symbols` that stand
for background activities). -/
def actSyms : SExpr → List String
  | num _ => []
  | param _ => []
  | actSym s => [s]
  | add a b => a.actSyms ++ b.actSyms
  | mul a b => a.actSyms ++ b.actSyms
  | div a b => a.actSyms ++ b.actSyms

theorem actSyms_sadd (a b : SExpr) : ∀ x ∈ (sadd a b).actSyms, x ∈ a.actSyms ∨ x ∈ b.actSyms := by
  cases a <;> cases b <;> simp only [sadd, actSyms] <;> (try split_ifs) <;>
    intro x hx <;> simp_all [actSyms] <;> tauto

theorem actSyms_smul (a b : SExpr) : ∀ x ∈ (smul a b).actSyms, x ∈ a.actSyms ∨ x ∈ b.actSyms := by
  cases a <;> cases b <;> simp only [smul, actSyms] <;> (try split_ifs) <;>
    intro x hx <;> simp_all [actSyms] <;> tauto

theorem actSyms_sdiv (a b : SExpr) : ∀ x ∈ (sdiv a b).actSyms, x ∈ a.actSyms ∨ x ∈ b.actSyms := by
  cases a <;> cases b <;> simp only [sdiv, actSyms] <;> (try split_ifs) <;>
    intro x hx <;> simp_all [actSyms] <;> tauto

end SExpr

/-! ### The activity graph model

An activity is identified by `(database, code)`; `exch['input']` and
`exch['output']` are such keys.  `_getAmountOrFormula` yields either a static
number, a sympy formula over parameters, or an opaque Python function (the
dynamically computed amounts that `rec_func` skips). -/

/-- Activity key `(database-name, code)`. -/
abbrev ActKey := String × String

/-- Result of `_getAmountOrFormula(exch)`. -/
inductive Amount where
  | num (q : ℚ)
  | formula (e : SExpr)
  | func
  deriving DecidableEq, Repr

/-- The static expression for an exchange amount; `none` for the opaque
function case (`isinstance(formula, types.FunctionType)`). -/
def Amount.toExpr? : Amount → Option SExpr
  | .num q => some (.num q)
  | .formula e => some e
  | .func => none

/-- One exchange: `input`/`output` keys, the raw numeric `exch['amount']`, and
the value of `_getAmountOrFormula(exch)`. -/
structure Exchange where
  input : ActKey
  output : ActKey
  amount : ℚ
  formula : Amount
  deriving DecidableEq, Repr

/-- Stored data of one activity (`act['name']`, `act.exchanges()`); `key` is
the activity's own `(act['database'], act['code'])`. -/
structure ActData where
  key : ActKey
  name : String
  exchanges : List Exchange
  deriving DecidableEq, Repr

/-- The joined databases: an association of keys to activities
(`_getDb(db).get(code)`). -/
abbrev Model := List (ActKey × ActData)

/-- `_getDb(db_name).get(code)`. -/
def dbGet (m : Model) (k : ActKey) : Option ActData :=
  match m with
  | [] => none
  | p :: rest => if p.1 = k then some p.2 else dbGet rest k

/-- Modelled from the spec: the background database names
(`BIOSPHERE3_DB_NAME` and `ECOINVENT_DB_NAME()`, defined in the missing
`helpers.py`; only their identity matters). -/
def BIOSPHERE3_DB_NAME : String := "biosphere3"

/-- Modelled from the spec: name of the ecoinvent background database. -/
def ECOINVENT_DB_NAME : String := "ecoinvent"

/-- Test of line 294: `input_db in [BIOSPHERE3_DB_NAME, ECOINVENT_DB_NAME()]`. -/
def isBackgroundDb (db : String) : Prop :=
  db = BIOSPHERE3_DB_NAME ∨ db = ECOINVENT_DB_NAME

instance (db : String) : Decidable (isBackgroundDb db) := by
  unfold isBackgroundDb; infer_instance

/-- The `act_symbols` dict (insertion-ordered, key = activity, value = slug). -/
abbrev SymTab := List (ActKey × String)

/-- First-match lookup in `act_symbols` (`(input_db, input_code) in act_symbols`). -/
def lookupSym (st : SymTab) (k : ActKey) : Option String :=
  match st with
  | [] => none
  | p :: rest => if p.1 = k then some p.2 else lookupSym rest k

/-- The allocated symbol slugs (`act_symbols.values()`). -/
def symVals (st : SymTab) : List String := st.map Prod.snd

/-- Errors of the expression-building pass: the `RecursionError`-kind raise of
line 303, a failed database lookup, and exhaustion of the recursion budget
(the Python recursion has no own bound; `outOfFuel` marks a call depth larger
than the modelled budget). -/
inductive BuildErr where
  | recursiveExchange
  | dbMissing
  | outOfFuel
  deriving DecidableEq, Repr

/-- `act_to_symbol(db_name, code)` (lines 258–270): slugify the activity name
and suffix `1, 2, …` while the candidate is an already-allocated symbol. -/
def act_to_symbol (m : Model) (taken : List String) (k : ActKey) : Except BuildErr String :=
  match dbGet m k with
  | none => .error .dbMissing
  | some a => .ok (freshSlug taken (slugify a.name))

/-- Lines 295–297: reuse the symbol cached for `(input_db, input_code)` or
allocate a fresh one and record it. -/
def getOrAllocSymbol (m : Model) (st : SymTab) (k : ActKey) : Except BuildErr (String × SymTab) :=
  match lookupSym st k with
  | some s => .ok (s, st)
  | none =>
    match act_to_symbol m (symVals st) k with
    | .error e => .error e
    | .ok s => .ok (s, st ++ [(k, s)])

/-- The loop body of `rec_func` over the exchange list, carrying the running
sum `res`, the `outputAmount` divisor, and the symbol table; `rec` is the
recursive call available to sub-activities (one fuel level down). -/
def foldExchs (m : Model) (act : ActData)
    (rec : ActData → SymTab → Except BuildErr (SExpr × SymTab)) :
    List Exchange → SExpr → ℚ → SymTab → Except BuildErr (SExpr × ℚ × SymTab)
  | [], res, outA, st => .ok (res, outA, st)
  | exch :: rest, res, outA, st =>
    match exch.formula.toExpr? with
    | none => foldExchs m act rec rest res outA st
    | some f =>
      if exch.input = exch.output then
        foldExchs m act rec rest res (if exch.amount = 1 then outA else exch.amount) st
      else if isBackgroundDb exch.input.1 then
        match getOrAllocSymbol m st exch.input with
        | .error e => .error e
        | .ok (sym, st') =>
          foldExchs m act rec rest (SExpr.sadd res (SExpr.smul f (.actSym sym))) outA st'
      else if exch.input = act.key then
        .error .recursiveExchange
      else
        match dbGet m exch.input with
        | none => .error .dbMissing
        | some sub =>
          match rec sub st with
          | .error e => .error e
          | .ok (subExpr, st') =>
            foldExchs m act rec rest (SExpr.sadd res (SExpr.smul f subExpr)) outA st'

/-- `rec_func(act)` (lines 272–310), with an explicit call-depth budget.  The
definition is by `Nat.rec` on the budget so that it evaluates by kernel
reduction on concrete models. -/
def recFunc (m : Model) (fuel : ℕ) : ActData → SymTab → Except BuildErr (SExpr × SymTab) :=
  Nat.rec (motive := fun _ => ActData → SymTab → Except BuildErr (SExpr × SymTab))
    (fun _ _ => .error .outOfFuel)
    (fun _ ih act st =>
      match foldExchs m act ih act.exchanges (.num 0) 1 st with
      | .error e => .error e
      | .ok r => .ok (SExpr.sdiv r.1 (.num r.2.1), r.2.2))
    fuel

theorem recFunc_zero (m : Model) (act : ActData) (st : SymTab) :
    recFunc m 0 act st = .error .outOfFuel := rfl

theorem recFunc_succ (m : Model) (fuel : ℕ) (act : ActData) (st : SymTab) :
    recFunc m (fuel + 1) act st =
      match foldExchs m act (recFunc m fuel) act.exchanges (.num 0) 1 st with
      | .error e => .error e
      | .ok r => .ok (SExpr.sdiv r.1 (.num r.2.1), r.2.2) := rfl

/-- `actToExpression(act)` (lines 248–314): run `rec_func` from an empty
symbol table; the pair of expression and symbol table is returned (the Python
code returns the table reversed into a symbol→activity dict). -/
def actToExpression (m : Model) (fuel : ℕ) (root : ActData) :
    Except BuildErr (SExpr × SymTab) :=
  recFunc m fuel root []

/-! ### Symbol-table invariants (for the Symbol Allocator claims) -/

/-- A healthy `act_symbols` dict: keys are pairwise distinct (it is a dict)
and values are pairwise distinct (injectivity of the allocation). -/
def SymTabOk (st : SymTab) : Prop :=
  (st.map Prod.fst).Nodup ∧ (st.map Prod.snd).Nodup

instance (st : SymTab) : Decidable (SymTabOk st) := by
  unfold SymTabOk; infer_instance

theorem lookupSym_mem {st : SymTab} {k : ActKey} {s : String}
    (h : lookupSym st k = some s) : (k, s) ∈ st := by
  induction st with
  | nil => simp [lookupSym] at h
  | cons p rest ih =>
    rw [lookupSym] at h
    by_cases hk : p.1 = k
    · rw [if_pos hk] at h
      have hp : p = (k, s) := by cases p; simp_all
      exact hp ▸ List.mem_cons_self _ _
    · rw [if_neg hk] at h
      exact List.mem_cons_of_mem _ (ih h)

theorem lookupSym_none_iff {st : SymTab} {k : ActKey} :
    lookupSym st k = none ↔ k ∉ st.map Prod.fst := by
  induction st with
  | nil => simp [lookupSym]
  | cons p rest ih =>
    rw [lookupSym]
    by_cases hk : p.1 = k
    · simp [hk]
    · simp [hk, ih, Ne.symm hk]

theorem lookupSym_append_left {st : SymTab} {k : ActKey} {s : String} (ext : SymTab)
    (h : lookupSym st k = some s) : lookupSym (st ++ ext) k = some s := by
  induction st with
  | nil => simp [lookupSym] at h
  | cons p rest ih =>
    rw [List.cons_append]
    rw [lookupSym] at h ⊢
    by_cases hk : p.1 = k
    · rwa [if_pos hk] at h ⊢
    · rw [if_neg hk] at h ⊢
      exact ih h

theorem lookupSym_append_self {st : SymTab} {k : ActKey} (s : String)
    (h : lookupSym st k = none) : lookupSym (st ++ [(k, s)]) k = some s := by
  induction st with
  | nil => simp [lookupSym]
  | cons p rest ih =>
    rw [List.cons_append]
    rw [lookupSym] at h ⊢
    by_cases hk : p.1 = k
    · rw [if_pos hk] at h; cases h
    · rw [if_neg hk] at h ⊢
      exact ih h

theorem mem_symVals_of_lookup {st : SymTab} {k : ActKey} {s : String}
    (h : lookupSym st k = some s) : s ∈ symVals st := by
  have := lookupSym_mem h
  exact List.mem_map.mpr ⟨(k, s), this, rfl⟩

/-- Distinct keys receive distinct values under a value-Nodup table. -/
theorem lookupSym_inj {st : SymTab} {k1 k2 : ActKey} {s1 s2 : String}
    (hok : (st.map Prod.snd).Nodup)
    (h1 : lookupSym st k1 = some s1) (h2 : lookupSym st k2 = some s2)
    (hne : k1 ≠ k2) : s1 ≠ s2 := by
  induction st with
  | nil => simp [lookupSym] at h1
  | cons p rest ih =>
    rw [lookupSym] at h1 h2
    rw [List.map_cons, List.nodup_cons] at hok
    by_cases hk1 : p.1 = k1
    · rw [if_pos hk1] at h1
      have hk2 : p.1 ≠ k2 := fun hc => hne (hk1 ▸ hc)
      rw [if_neg hk2] at h2
      cases h1
      intro hc
      exact hok.1 (hc ▸ mem_symVals_of_lookup h2)
    · rw [if_neg hk1] at h1
      by_cases hk2 : p.1 = k2
      · rw [if_pos hk2] at h2
        cases h2
        intro hc
        exact hok.1 (hc ▸ mem_symVals_of_lookup h1)
      · rw [if_neg hk2] at h2
        exact ih hok.2 h1 h2

theorem getOrAllocSymbol_lookup {m : Model} {st st' : SymTab} {k : ActKey} {s : String}
    (h : getOrAllocSymbol m st k = .ok (s, st')) : lookupSym st' k = some s := by
  unfold getOrAllocSymbol at h
  cases hl : lookupSym st k with
  | some s0 => rw [hl] at h; cases h; exact hl
  | none =>
    rw [hl] at h
    cases ha : act_to_symbol m (symVals st) k with
    | error e => rw [ha] at h; cases h
    | ok s0 =>
      rw [ha] at h
      cases h
      exact lookupSym_append_self _ hl

theorem act_to_symbol_fresh {m : Model} {taken : List String} {k : ActKey} {s : String}
    (h : act_to_symbol m taken k = .ok s) : s ∉ taken := by
  unfold act_to_symbol at h
  cases hd : dbGet m k with
  | none => rw [hd] at h; cases h
  | some a =>
    rw [hd] at h
    cases h
    exact freshSlug_not_mem _ _

theorem getOrAllocSymbol_ok_preserved {m : Model} {st st' : SymTab} {k : ActKey} {s : String}
    (hok : SymTabOk st) (h : getOrAllocSymbol m st k = .ok (s, st')) : SymTabOk st' := by
  unfold getOrAllocSymbol at h
  cases hl : lookupSym st k with
  | some s0 => rw [hl] at h; cases h; exact hok
  | none =>
    rw [hl] at h
    cases ha : act_to_symbol m (symVals st) k with
    | error e => rw [ha] at h; cases h
    | ok s0 =>
      rw [ha] at h
      cases h
      constructor
      · rw [List.map_append, List.nodup_append]
        refine ⟨hok.1, by simp, ?_⟩
        intro x hx
        simp only [List.map_cons, List.map_nil, List.mem_singleton]
        intro hc
        subst hc
        exact (lookupSym_none_iff.mp hl) hx
      · rw [List.map_append, List.nodup_append]
        refine ⟨hok.2, by simp, ?_⟩
        intro x hx
        simp only [List.map_cons, List.map_nil, List.mem_singleton]
        intro hc
        subst hc
        exact (act_to_symbol_fresh ha) hx

theorem getOrAllocSymbol_mem_vals {m : Model} {st st' : SymTab} {k : ActKey} {s : String}
    (h : getOrAllocSymbol m st k = .ok (s, st')) : s ∈ symVals st' :=
  mem_symVals_of_lookup (getOrAllocSymbol_lookup h)

theorem getOrAllocSymbol_extends {m : Model} {st st' : SymTab} {k : ActKey} {s : String}
    (h : getOrAllocSymbol m st k = .ok (s, st')) : ∃ ext, st' = st ++ ext := by
  unfold getOrAllocSymbol at h
  cases hl : lookupSym st k with
  | some s0 =>
    rw [hl] at h
    cases h
    exact ⟨[], by simp⟩
  | none =>
    rw [hl] at h
    cases ha : act_to_symbol m (symVals st) k with
    | error e => rw [ha] at h; cases h
    | ok s0 =>
      rw [ha] at h
      cases h
      exact ⟨[(k, s)], rfl⟩

/-- C5: within one expression-building pass, starting from a healthy symbol
table, allocating symbols for two distinct `(db, code)` pairs yields distinct
symbols, and repeating the lookup of either pair returns the already-allocated
symbol with the table unchanged. -/
theorem symbol_allocation_injective_idempotent
    (m : Model) (st st1 st2 : SymTab) (k1 k2 : ActKey) (s1 s2 : String)
    (hok : SymTabOk st)
    (h1 : getOrAllocSymbol m st k1 = .ok (s1, st1))
    (h2 : getOrAllocSymbol m st1 k2 = .ok (s2, st2))
    (hne : k1 ≠ k2) :
    s1 ≠ s2 ∧ getOrAllocSymbol m st1 k1 = .ok (s1, st1) ∧
      getOrAllocSymbol m st2 k2 = .ok (s2, st2) := by
  have hok1 : SymTabOk st1 := getOrAllocSymbol_ok_preserved hok h1
  have hok2 : SymTabOk st2 := getOrAllocSymbol_ok_preserved hok1 h2
  have l1 : lookupSym st1 k1 = some s1 := getOrAllocSymbol_lookup h1
  have l2 : lookupSym st2 k2 = some s2 := getOrAllocSymbol_lookup h2
  obtain ⟨ext, hext⟩ := getOrAllocSymbol_extends h2
  have l1' : lookupSym st2 k1 = some s1 := hext ▸ lookupSym_append_left ext l1
  refine ⟨lookupSym_inj hok2.2 l1' l2 hne, ?_, ?_⟩
  · unfold getOrAllocSymbol
    rw [l1]
  · unfold getOrAllocSymbol
    rw [l2]

/-! Witness fixture: a model with one biosphere and one ecoinvent activity. -/

def w5keyBio : ActKey := (BIOSPHERE3_DB_NAME, "co2")

def w5keyEco : ActKey := (ECOINVENT_DB_NAME, "steel")

def w5Model : Model :=
  [ (w5keyBio, ⟨w5keyBio, "Carbon dioxide", []⟩),
    (w5keyEco, ⟨w5keyEco, "steel production", []⟩) ]

def w5St1 : SymTab := [(w5keyBio, "Carbon_dioxide")]

def w5St2 : SymTab := [(w5keyBio, "Carbon_dioxide"), (w5keyEco, "steel_production")]

/-- Witness for C5 at a concrete model: the two allocations give the distinct
slugs `Carbon_dioxide` and `steel_production`, and both repeated lookups are
stable. -/
theorem symbol_allocation_injective_idempotent_witness :
    ("Carbon_dioxide" : String) ≠ "steel_production" ∧
      getOrAllocSymbol w5Model w5St1 w5keyBio = .ok ("Carbon_dioxide", w5St1) ∧
      getOrAllocSymbol w5Model w5St2 w5keyEco = .ok ("steel_production", w5St2) :=
  symbol_allocation_injective_idempotent w5Model [] w5St1 w5St2 w5keyBio w5keyEco
    "Carbon_dioxide" "steel_production" (by decide) rfl rfl (by decide)

/-! ### Termination of the expression-building recursion (C1) -/

/-- Activity symbols referenced by an exchange amount; exchange formulas are
sympy expressions over model parameters, so a well-formed model has none. -/
def amountActSyms : Amount → List String
  | .formula f => f.actSyms
  | _ => []

/-- Well-formedness of the database model: it is a dict (distinct keys), every
stored activity carries its own key, and exchange formulas only mention model
parameters (never activity symbols, which are created later by
`actToExpression`). -/
def WfModel (m : Model) : Prop :=
  (m.map Prod.fst).Nodup ∧
    ∀ p ∈ m, p.2.key = p.1 ∧ ∀ e ∈ p.2.exchanges, amountActSyms e.formula = []

instance (m : Model) : Decidable (WfModel m) := by
  unfold WfModel; infer_instance

/-- No self-referencing exchanges: no exchange points back at its own
activity, neither as a self-loop (`input == output`) nor with the owning
activity's key as input. -/
def NoSelfRef (m : Model) : Prop :=
  ∀ p ∈ m, ∀ e ∈ p.2.exchanges, e.input ≠ p.1 ∧ e.input ≠ e.output

instance (m : Model) : Decidable (NoSelfRef m) := by
  unfold NoSelfRef; infer_instance

/-- `buildExpression` terminates on this root: some finite call-depth budget
suffices for the depth-first recursion to finish (with a result or a genuine
error, but not by running out of call depth). -/
def BuildTerminates (m : Model) (root : ActData) : Prop :=
  ∃ fuel, actToExpression m fuel root ≠ .error .outOfFuel

theorem dbGet_mem {m : Model} {k : ActKey} {a : ActData} (h : dbGet m k = some a) :
    (k, a) ∈ m := by
  induction m with
  | nil => simp [dbGet] at h
  | cons p rest ih =>
    rw [dbGet] at h
    by_cases hk : p.1 = k
    · rw [if_pos hk] at h
      have : p = (k, a) := by cases p; simp_all
      exact this ▸ List.mem_cons_self _ _
    · rw [if_neg hk] at h
      exact List.mem_cons_of_mem _ (ih h)

/-- The indirect two-activity foreground cycle: `a` references `b` and `b`
references `a`, with no self-referencing exchange anywhere. -/
def cycA : ActKey := ("fg", "a")

def cycB : ActKey := ("fg", "b")

def cycActA : ActData := ⟨cycA, "act a", [⟨cycB, cycA, 1, .num 1⟩]⟩

def cycActB : ActData := ⟨cycB, "act b", [⟨cycA, cycB, 1, .num 1⟩]⟩

def cycModel : Model := [(cycA, cycActA), (cycB, cycActB)]

theorem cyc_no_fuel : ∀ fuel st,
    recFunc cycModel fuel cycActA st = .error .outOfFuel ∧
      recFunc cycModel fuel cycActB st = .error .outOfFuel := by
  intro fuel
  induction fuel with
  | zero => intro st; exact ⟨rfl, rfl⟩
  | succ f ih =>
    intro st
    constructor
    · have h := (ih st).2
      unfold cycActB cycB cycA at h
      simp [recFunc_succ, foldExchs, cycActA, cycActB, cycA, cycB, Amount.toExpr?,
        isBackgroundDb, BIOSPHERE3_DB_NAME, ECOINVENT_DB_NAME, dbGet, h]
    · have h := (ih st).1
      unfold cycActA cycB cycA at h
      simp [recFunc_succ, foldExchs, cycActA, cycActB, cycA, cycB, Amount.toExpr?,
        isBackgroundDb, BIOSPHERE3_DB_NAME, ECOINVENT_DB_NAME, dbGet, h]

/-- C1 counterexample: a well-formed foreground model with no self-referencing
exchange on which `buildExpression` does not terminate — the two-activity
indirect cycle exhausts every call-depth budget, because only a direct
self-reference is detected. -/
theorem buildExpression_cycle_diverges :
    WfModel cycModel ∧ NoSelfRef cycModel ∧ ¬ BuildTerminates cycModel cycActA := by
  refine ⟨by decide, by decide, ?_⟩
  rintro ⟨fuel, hf⟩
  exact hf ((cyc_no_fuel fuel []).1)

/-- An explicit acyclicity witness for the foreground reference graph: a
measure that decreases along every exchange the recursion expands (amount not
an opaque function, not a self-loop, input not in a background database). -/
def DecreasingMeasure (m : Model) (d : ActKey → ℕ) : Prop :=
  ∀ p ∈ m, ∀ e ∈ p.2.exchanges, (e.formula.toExpr?).isSome = true → e.input ≠ e.output →
    ¬ isBackgroundDb e.input.1 → d e.input < d p.1

instance (m : Model) (d : ActKey → ℕ) : Decidable (DecreasingMeasure m d) := by
  unfold DecreasingMeasure; infer_instance

theorem getOrAllocSymbol_error_eq {m : Model} {st : SymTab} {k : ActKey} {e : BuildErr}
    (h : getOrAllocSymbol m st k = .error e) : e = .dbMissing := by
  unfold getOrAllocSymbol act_to_symbol at h
  cases hl : lookupSym st k with
  | some s0 => rw [hl] at h; cases h
  | none =>
    rw [hl] at h
    cases hd : dbGet m k with
    | none => rw [hd] at h; cases h; rfl
    | some a => rw [hd] at h; cases h

theorem recFunc_no_outOfFuel (m : Model) (d : ActKey → ℕ)
    (hkey : ∀ p ∈ m, p.2.key = p.1) (hd : DecreasingMeasure m d) :
    ∀ fuel (a : ActData) (st : SymTab), (∃ k, dbGet m k = some a) → d a.key < fuel →
      recFunc m fuel a st ≠ .error .outOfFuel := by
  intro fuel
  induction fuel with
  | zero => intro a st _ h; omega
  | succ f ih =>
    rintro a st ⟨k, hk⟩ hlt
    have hmem := dbGet_mem hk
    have hak : a.key = k := hkey _ hmem
    rw [recFunc_succ]
    have hfold : ∀ (exchs : List Exchange) (res : SExpr) (outA : ℚ) (st' : SymTab),
        (∀ e ∈ exchs, e ∈ a.exchanges) →
        foldExchs m a (recFunc m f) exchs res outA st' ≠ .error .outOfFuel := by
      intro exchs
      induction exchs with
      | nil => intro res outA st' _ h; simp [foldExchs] at h
      | cons e rest ihe =>
        intro res outA st' hsub
        have hemem : e ∈ a.exchanges := hsub e (List.mem_cons_self _ _)
        have hrest : ∀ x ∈ rest, x ∈ a.exchanges := fun x hx =>
          hsub x (List.mem_cons_of_mem _ hx)
        rw [foldExchs]
        cases hf1 : e.formula.toExpr? with
        | none => exact ihe _ _ _ hrest
        | some fx =>
          dsimp only
          by_cases h1 : e.input = e.output
          · rw [if_pos h1]
            exact ihe _ _ _ hrest
          · rw [if_neg h1]
            by_cases h2 : isBackgroundDb e.input.1
            · rw [if_pos h2]
              cases hga : getOrAllocSymbol m st' e.input with
              | error ge =>
                intro hc
                have : ge = BuildErr.outOfFuel := by cases hc; rfl
                rw [getOrAllocSymbol_error_eq hga] at this
                cases this
              | ok pr => exact ihe _ _ _ hrest
            · rw [if_neg h2]
              by_cases h3 : e.input = a.key
              · rw [if_pos h3]
                intro hc
                cases hc
              · rw [if_neg h3]
                cases hsub' : dbGet m e.input with
                | none => intro hc; cases hc
                | some sub =>
                  dsimp only
                  have hdlt : d e.input < d k :=
                    hd (k, a) hmem e hemem (by rw [hf1]; rfl) h1 h2
                  have hsubkey : sub.key = e.input := hkey _ (dbGet_mem hsub')
                  have hdak : d a.key = d k := by rw [hak]
                  have hrec : recFunc m f sub st' ≠ .error .outOfFuel := by
                    refine ih sub st' ⟨e.input, hsub'⟩ ?_
                    rw [hsubkey]
                    omega
                  cases hrecv : recFunc m f sub st' with
                  | error ge =>
                    intro hc
                    have : ge = BuildErr.outOfFuel := by cases hc; rfl
                    rw [this] at hrecv
                    exact hrec hrecv
                  | ok pr => exact ihe _ _ _ hrest
    cases hfv : foldExchs m a (recFunc m f) a.exchanges (.num 0) 1 st with
    | error ge =>
      intro hc
      have : ge = BuildErr.outOfFuel := by cases hc; rfl
      rw [this] at hfv
      exact hfold _ _ _ _ (fun _ hx => hx) hfv
    | ok r => intro hc; cases hc

/-- C1 amended: `buildExpression` terminates on every well-keyed model whose
expanded foreground reference graph admits a decreasing measure (is acyclic);
the original claim's allowance for indirect cycles is refuted by
`buildExpression_cycle_diverges`. -/
theorem actToExpression_terminates_of_acyclic
    (m : Model) (d : ActKey → ℕ) (root : ActData) (k : ActKey)
    (hkey : ∀ p ∈ m, p.2.key = p.1) (hd : DecreasingMeasure m d)
    (hroot : dbGet m k = some root) :
    BuildTerminates m root :=
  ⟨d root.key + 1,
    recFunc_no_outOfFuel m d hkey hd (d root.key + 1) root [] ⟨k, hroot⟩ (by omega)⟩

/-! Witness fixture for C1: a two-level acyclic foreground model over a
background steel activity. -/

def w1keyRoot : ActKey := ("fg", "r")

def w1keySub : ActKey := ("fg", "s")

def w1keyBg : ActKey := (ECOINVENT_DB_NAME, "steel")

def w1sub : ActData := ⟨w1keySub, "sub act", [⟨w1keyBg, w1keySub, 1, .num 2⟩]⟩

def w1root : ActData := ⟨w1keyRoot, "root act", [⟨w1keySub, w1keyRoot, 1, .num 3⟩]⟩

def w1Model : Model :=
  [ (w1keyRoot, w1root), (w1keySub, w1sub),
    (w1keyBg, ⟨w1keyBg, "steel production", []⟩) ]

def w1d : ActKey → ℕ := fun k => if k = w1keyRoot then 1 else 0

/-- Witness for the amended C1 on a concrete acyclic model. -/
theorem actToExpression_terminates_of_acyclic_witness :
    BuildTerminates w1Model w1root :=
  actToExpression_terminates_of_acyclic w1Model w1d w1root w1keyRoot
    (by decide) (by decide) rfl

/-! ### Free symbols of the built expression (C2) -/

/-- Graph reachability of a background/biosphere leaf from an activity: follow
exchanges, expanding foreground inputs, until an exchange input lies in a
background database.  This is plain reachability: it also counts exchanges the
builder skips (opaque function amounts). -/
inductive ReachBgLeaf (m : Model) : ActData → ActKey → Prop
  | here {a : ActData} {e : Exchange} {k : ActKey} :
      e ∈ a.exchanges → e.input = k → isBackgroundDb k.1 → ReachBgLeaf m a k
  | there {a sub : ActData} {e : Exchange} {k : ActKey} :
      e ∈ a.exchanges → ¬ isBackgroundDb e.input.1 → dbGet m e.input = some sub →
      ReachBgLeaf m sub k → ReachBgLeaf m a k

theorem getOrAllocSymbol_cases {m : Model} {st st' : SymTab} {k : ActKey} {s : String}
    (h : getOrAllocSymbol m st k = .ok (s, st')) : st' = st ∨ st' = st ++ [(k, s)] := by
  unfold getOrAllocSymbol at h
  cases hl : lookupSym st k with
  | some s0 => rw [hl] at h; cases h; exact Or.inl rfl
  | none =>
    rw [hl] at h
    cases ha : act_to_symbol m (symVals st) k with
    | error e => rw [ha] at h; cases h
    | ok s0 => rw [ha] at h; cases h; exact Or.inr rfl

theorem toExpr?_actSyms {am : Amount} {fx : SExpr} (h : am.toExpr? = some fx) :
    fx.actSyms = amountActSyms am := by
  cases am with
  | num q => cases h; rfl
  | formula f => cases h; rfl
  | func => cases h

theorem foldExchs_sound (m : Model) (a : ActData)
    (rec : ActData → SymTab → Except BuildErr (SExpr × SymTab))
    (hrec : ∀ (sub : ActData) (st st' : SymTab) (e : SExpr),
      (∃ kk, dbGet m kk = some sub) → rec sub st = .ok (e, st') →
      (∃ ext, st' = st ++ ext) ∧
      (∀ p ∈ st', p ∉ st → isBackgroundDb p.1.1 ∧ ReachBgLeaf m sub p.1) ∧
      (∀ s ∈ e.actSyms, ∃ k, lookupSym st' k = some s ∧ ReachBgLeaf m sub k)) :
    ∀ (exchs : List Exchange), (∀ x ∈ exchs, x ∈ a.exchanges) →
      (∀ x ∈ exchs, amountActSyms x.formula = []) →
      ∀ (res : SExpr) (outA : ℚ) (st st' : SymTab) (r : SExpr) (oA : ℚ),
      foldExchs m a rec exchs res outA st = .ok (r, oA, st') →
      (∀ s ∈ res.actSyms, ∃ k, lookupSym st k = some s ∧ ReachBgLeaf m a k) →
      (∃ ext, st' = st ++ ext) ∧
      (∀ p ∈ st', p ∉ st → isBackgroundDb p.1.1 ∧ ReachBgLeaf m a p.1) ∧
      (∀ s ∈ r.actSyms, ∃ k, lookupSym st' k = some s ∧ ReachBgLeaf m a k) := by
  intro exchs
  induction exchs with
  | nil =>
    intro _ _ res outA st st' r oA h hres
    rw [foldExchs] at h
    cases h
    exact ⟨⟨[], by simp⟩, fun p hp hnp => absurd hp hnp, hres⟩
  | cons x rest ih =>
    intro hmem hfml res outA st st' r oA h hres
    have hxmem : x ∈ a.exchanges := hmem x (List.mem_cons_self _ _)
    have hrmem : ∀ y ∈ rest, y ∈ a.exchanges := fun y hy => hmem y (List.mem_cons_of_mem _ hy)
    have hrfml : ∀ y ∈ rest, amountActSyms y.formula = [] := fun y hy =>
      hfml y (List.mem_cons_of_mem _ hy)
    rw [foldExchs] at h
    cases hf1 : x.formula.toExpr? with
    | none =>
      rw [hf1] at h
      exact ih hrmem hrfml res outA st st' r oA h hres
    | some fx =>
      have hfx : fx.actSyms = [] := by
        rw [toExpr?_actSyms hf1]
        exact hfml x (List.mem_cons_self _ _)
      rw [hf1] at h
      dsimp only at h
      by_cases h1 : x.input = x.output
      · rw [if_pos h1] at h
        exact ih hrmem hrfml res _ st st' r oA h hres
      · rw [if_neg h1] at h
        by_cases h2 : isBackgroundDb x.input.1
        · rw [if_pos h2] at h
          cases hga : getOrAllocSymbol m st x.input with
          | error ge => rw [hga] at h; cases h
          | ok pr =>
            rw [hga] at h
            obtain ⟨sym, st1⟩ := pr
            obtain ⟨ext0, hext0⟩ := getOrAllocSymbol_extends hga
            have hreach : ReachBgLeaf m a x.input := .here hxmem rfl h2
            have hlook1 : lookupSym st1 x.input = some sym := getOrAllocSymbol_lookup hga
            have hnew0 : ∀ p ∈ st1, p ∉ st → isBackgroundDb p.1.1 ∧ ReachBgLeaf m a p.1 := by
              intro p hp hnp
              rcases getOrAllocSymbol_cases hga with hc | hc
              · rw [hc] at hp
                exact absurd hp hnp
              · rw [hc] at hp
                rcases List.mem_append.mp hp with hin | hin
                · exact absurd hin hnp
                · rcases List.mem_singleton.mp hin with rfl
                  exact ⟨h2, hreach⟩
            have hres1 : ∀ s ∈ (SExpr.sadd res (SExpr.smul fx (.actSym sym))).actSyms,
                ∃ k, lookupSym st1 k = some s ∧ ReachBgLeaf m a k := by
              intro s hs
              rcases SExpr.actSyms_sadd _ _ s hs with hs0 | hs1
              · obtain ⟨k0, hk0, hr0⟩ := hres s hs0
                exact ⟨k0, hext0 ▸ lookupSym_append_left ext0 hk0, hr0⟩
              · rcases SExpr.actSyms_smul _ _ s hs1 with hsf | hsy
                · rw [hfx] at hsf; cases hsf
                · have hssym : s = sym := by simpa [SExpr.actSyms] using hsy
                  subst hssym
                  exact ⟨x.input, hlook1, hreach⟩
            obtain ⟨⟨ext1, hext1⟩, hnew1, hsym1⟩ :=
              ih hrmem hrfml _ outA st1 st' r oA h hres1
            refine ⟨⟨ext0 ++ ext1, by rw [hext1, hext0, List.append_assoc]⟩, ?_, hsym1⟩
            intro p hp hnp
            by_cases hp1 : p ∈ st1
            · exact hnew0 p hp1 hnp
            · exact hnew1 p hp hp1
        · rw [if_neg h2] at h
          by_cases h3 : x.input = a.key
          · rw [if_pos h3] at h; cases h
          · rw [if_neg h3] at h
            cases hsb : dbGet m x.input with
            | none => rw [hsb] at h; cases h
            | some sub =>
              rw [hsb] at h
              dsimp only at h
              cases hrv : rec sub st with
              | error ge => rw [hrv] at h; cases h
              | ok pr =>
                rw [hrv] at h
                obtain ⟨se, st1⟩ := pr
                obtain ⟨⟨ext0, hext0⟩, hnew0, hsub0⟩ :=
                  hrec sub st st1 se ⟨x.input, hsb⟩ hrv
                have hlift : ∀ k, ReachBgLeaf m sub k → ReachBgLeaf m a k := fun k hk =>
                  .there hxmem h2 hsb hk
                have hres1 : ∀ s ∈ (SExpr.sadd res (SExpr.smul fx se)).actSyms,
                    ∃ k, lookupSym st1 k = some s ∧ ReachBgLeaf m a k := by
                  intro s hs
                  rcases SExpr.actSyms_sadd _ _ s hs with hs0 | hs1
                  · obtain ⟨k0, hk0, hr0⟩ := hres s hs0
                    exact ⟨k0, hext0 ▸ lookupSym_append_left ext0 hk0, hr0⟩
                  · rcases SExpr.actSyms_smul _ _ s hs1 with hsf | hsy
                    · rw [hfx] at hsf; cases hsf
                    · obtain ⟨k0, hk0, hr0⟩ := hsub0 s hsy
                      exact ⟨k0, hk0, hlift k0 hr0⟩
                obtain ⟨⟨ext1, hext1⟩, hnew1, hsym1⟩ :=
                  ih hrmem hrfml _ outA st1 st' r oA h hres1
                refine ⟨⟨ext0 ++ ext1, by rw [hext1, hext0, List.append_assoc]⟩, ?_, hsym1⟩
                intro p hp hnp
                by_cases hp1 : p ∈ st1
                · obtain ⟨hbg, hr⟩ := hnew0 p hp1 hnp
                  exact ⟨hbg, hlift p.1 hr⟩
                · exact hnew1 p hp hp1

theorem recFunc_sound (m : Model)
    (hwf : ∀ p ∈ m, ∀ e ∈ p.2.exchanges, amountActSyms e.formula = []) :
    ∀ (fuel : ℕ) (a : ActData), (∀ x ∈ a.exchanges, amountActSyms x.formula = []) →
    ∀ (st st' : SymTab) (e : SExpr),
      recFunc m fuel a st = .ok (e, st') →
      (∃ ext, st' = st ++ ext) ∧
      (∀ p ∈ st', p ∉ st → isBackgroundDb p.1.1 ∧ ReachBgLeaf m a p.1) ∧
      (∀ s ∈ e.actSyms, ∃ k, lookupSym st' k = some s ∧ ReachBgLeaf m a k) := by
  intro fuel
  induction fuel with
  | zero => intro a _ st st' e h; cases h
  | succ f ih =>
    intro a ha st st' e h
    rw [recFunc_succ] at h
    cases hfv : foldExchs m a (recFunc m f) a.exchanges (.num 0) 1 st with
    | error ge => rw [hfv] at h; cases h
    | ok r =>
      rw [hfv] at h
      cases h
      have hrec : ∀ (sub : ActData) (st0 st0' : SymTab) (e0 : SExpr),
          (∃ kk, dbGet m kk = some sub) → recFunc m f sub st0 = .ok (e0, st0') →
          (∃ ext, st0' = st0 ++ ext) ∧
          (∀ p ∈ st0', p ∉ st0 → isBackgroundDb p.1.1 ∧ ReachBgLeaf m sub p.1) ∧
          (∀ s ∈ e0.actSyms, ∃ k, lookupSym st0' k = some s ∧ ReachBgLeaf m sub k) := by
        rintro sub st0 st0' e0 ⟨kk, hkk⟩ h0
        exact ih sub (fun x hx => hwf (kk, sub) (dbGet_mem hkk) x hx) st0 st0' e0 h0
      obtain ⟨hext, hnew, hsym⟩ :=
        foldExchs_sound m a (recFunc m f) hrec a.exchanges (fun _ hx => hx) ha
          (.num 0) 1 st r.2.2 r.1 r.2.1 (by rw [hfv]) (by intro s hs; cases hs)
      refine ⟨hext, hnew, ?_⟩
      intro s hs
      rcases SExpr.actSyms_sdiv _ _ s hs with hs0 | hs1
      · exact hsym s hs0
      · cases hs1

/-- The literal reading of claim C2 for one model and root: whenever the build
succeeds, the activity symbols of the expression correspond exactly to the
background/biosphere leaves reachable from the root. -/
def SymbolsExact (m : Model) (root : ActData) : Prop :=
  ∀ fuel e st, actToExpression m fuel root = .ok (e, st) →
    ∀ k, (∃ s, lookupSym st k = some s ∧ s ∈ e.actSyms) ↔ ReachBgLeaf m root k

/-- C2 amended: every symbol table entry produced by `buildExpression` is a
background/biosphere activity (no foreground `(db, code)` pair is ever given a
symbol), and every activity symbol of the returned expression stands for a
background/biosphere leaf reachable from the root.  The converse inclusion of
the original claim fails (`buildExpression_symbols_not_exact`): a reachable
leaf whose exchange amount is an opaque function is skipped. -/
theorem buildExpression_symbols_sound
    (m : Model) (root : ActData) (fuel : ℕ) (e : SExpr) (st : SymTab)
    (hwf : WfModel m) (hroot : ∀ x ∈ root.exchanges, amountActSyms x.formula = [])
    (h : actToExpression m fuel root = .ok (e, st)) :
    (∀ p ∈ st, isBackgroundDb p.1.1) ∧
      (∀ s ∈ e.actSyms, ∃ k, lookupSym st k = some s ∧
        isBackgroundDb k.1 ∧ ReachBgLeaf m root k) := by
  have hwf3 : ∀ p ∈ m, ∀ x ∈ p.2.exchanges, amountActSyms x.formula = [] :=
    fun p hp x hx => (hwf.2 p hp).2 x hx
  obtain ⟨_, hnew, hsym⟩ := recFunc_sound m hwf3 fuel root hroot [] st e h
  have hbg : ∀ p ∈ st, isBackgroundDb p.1.1 := fun p hp =>
    (hnew p hp (by simp)).1
  refine ⟨hbg, ?_⟩
  intro s hs
  obtain ⟨k, hk, hr⟩ := hsym s hs
  have := hbg (k, s) (lookupSym_mem hk)
  exact ⟨k, hk, this, hr⟩

/-! Witness fixture for C2: the acyclic model `w1Model`, whose build yields
`3 * (2 * steel_production)` and the table `[(w1keyBg, "steel_production")]`. -/

def w2Expr : SExpr := .mul (.num 3) (.mul (.num 2) (.actSym "steel_production"))

def w2St : SymTab := [(w1keyBg, "steel_production")]

/-- Witness for the amended C2 on the concrete model `w1Model`. -/
theorem buildExpression_symbols_sound_witness :
    (∀ p ∈ w2St, isBackgroundDb p.1.1) ∧
      (∀ s ∈ w2Expr.actSyms, ∃ k, lookupSym w2St k = some s ∧
        isBackgroundDb k.1 ∧ ReachBgLeaf w1Model w1root k) :=
  buildExpression_symbols_sound w1Model w1root 2 w2Expr w2St
    (by decide) (by decide) rfl

/-! Counterexample fixture for C2 as stated: the root's single exchange points
at a biosphere leaf but its amount is an opaque function, so the exchange is
skipped and the reachable leaf gets no symbol. -/

def cx2key : ActKey := ("fg", "r2")

def cx2bio : ActKey := (BIOSPHERE3_DB_NAME, "methane")

def cx2exch : Exchange := ⟨cx2bio, cx2key, 1, .func⟩

def cx2root : ActData := ⟨cx2key, "root2", [cx2exch]⟩

def cx2Model : Model := [(cx2key, cx2root), (cx2bio, ⟨cx2bio, "Methane", []⟩)]

theorem cx2_build : actToExpression cx2Model 1 cx2root = .ok (SExpr.num 0, []) := by
  show recFunc cx2Model 1 cx2root [] = _
  rw [recFunc_succ]
  norm_num [foldExchs, cx2root, cx2exch, Amount.toExpr?, SExpr.sdiv]

/-- C2 counterexample: on `cx2Model` the biosphere leaf `cx2bio` is reachable
from the root, yet the built expression has no symbol for it — the symbols are
not exactly the reachable background/biosphere leaves. -/
theorem buildExpression_symbols_not_exact :
    WfModel cx2Model ∧ NoSelfRef cx2Model ∧ ¬ SymbolsExact cx2Model cx2root := by
  refine ⟨by decide, by decide, ?_⟩
  intro h
  have hreach : ReachBgLeaf cx2Model cx2root cx2bio :=
    .here (e := cx2exch) (List.mem_cons_self _ _) rfl (Or.inl rfl)
  obtain ⟨s, hlook, _⟩ := (h 1 (SExpr.num 0) [] cx2_build cx2bio).mpr hreach
  cases hlook

/-! ### Direct self-reference detection (C6) -/

theorem foldExchs_append (m : Model) (a : ActData)
    (rec : ActData → SymTab → Except BuildErr (SExpr × SymTab)) :
    ∀ (l1 l2 : List Exchange) (res : SExpr) (outA : ℚ) (st : SymTab),
    foldExchs m a rec (l1 ++ l2) res outA st =
      match foldExchs m a rec l1 res outA st with
      | .error e => .error e
      | .ok r => foldExchs m a rec l2 r.1 r.2.1 r.2.2 := by
  intro l1
  induction l1 with
  | nil => intro l2 res outA st; simp [foldExchs]
  | cons x rest ih =>
    intro l2 res outA st
    rw [List.cons_append, foldExchs, foldExchs]
    cases x.formula.toExpr? with
    | none => exact ih _ _ _ _
    | some fx =>
      dsimp only
      by_cases h1 : x.input = x.output
      · rw [if_pos h1, if_pos h1]
        exact ih _ _ _ _
      · rw [if_neg h1, if_neg h1]
        by_cases h2 : isBackgroundDb x.input.1
        · rw [if_pos h2, if_pos h2]
          cases getOrAllocSymbol m st x.input with
          | error e => rfl
          | ok pr =>
            obtain ⟨sym, st1⟩ := pr
            dsimp only
            exact ih _ _ _ _
        · rw [if_neg h2, if_neg h2]
          by_cases h3 : x.input = a.key
          · rw [if_pos h3, if_pos h3]
          · rw [if_neg h3, if_neg h3]
            cases dbGet m x.input with
            | none => rfl
            | some sub =>
              dsimp only
              cases rec sub st with
              | error e => rfl
              | ok pr =>
                obtain ⟨se, st1⟩ := pr
                dsimp only
                exact ih _ _ _ _

/-- C6 amended: a foreground activity whose exchange has the activity's own
key as input, a different output, and a static (non-opaque) amount makes
`rec_func` raise the `RecursionError`-kind failure when that exchange is
reached (after the preceding exchanges processed without error).  For an
opaque function amount the exchange is skipped instead, refuting the original
claim (`selfreference_opaque_amount_no_error`). -/
theorem recursive_exchange_error
    (m : Model) (a : ActData) (fuel : ℕ) (st : SymTab)
    (pre : List Exchange) (x : Exchange) (rest : List Exchange)
    (hex : a.exchanges = pre ++ x :: rest)
    (hstat : (x.formula.toExpr?).isSome = true)
    (hself : x.input = a.key) (hout : x.input ≠ x.output)
    (hbg : ¬ isBackgroundDb a.key.1)
    (racc : SExpr) (oacc : ℚ) (stacc : SymTab)
    (hpre : foldExchs m a (recFunc m fuel) pre (.num 0) 1 st = .ok (racc, oacc, stacc)) :
    recFunc m (fuel + 1) a st = .error .recursiveExchange := by
  rw [recFunc_succ, hex, foldExchs_append, hpre]
  obtain ⟨fx, hfx⟩ := Option.isSome_iff_exists.mp hstat
  dsimp only
  rw [foldExchs, hfx]
  dsimp only
  rw [if_neg hout]
  have hbg' : ¬ isBackgroundDb x.input.1 := by rw [hself]; exact hbg
  rw [if_neg hbg', if_pos hself]

/-! Counterexample fixture for C6 as stated: the self-referencing exchange's
amount is an opaque function, so it is skipped before the self-reference
check and the build succeeds. -/

def cx6key : ActKey := ("fg", "r6")

def cx6out : ActKey := ("fg", "other6")

def cx6exch : Exchange := ⟨cx6key, cx6out, 1, .func⟩

def cx6root : ActData := ⟨cx6key, "root6", [cx6exch]⟩

def cx6Model : Model := [(cx6key, cx6root)]

/-- C6 counterexample: an exchange whose input is the activity itself and is
not a self-loop production exchange, on which `buildExpression` succeeds
(returns `0`) instead of failing — its opaque function amount is skipped
before the self-reference check. -/
theorem selfreference_opaque_amount_no_error :
    cx6exch ∈ cx6root.exchanges ∧ cx6exch.input = cx6root.key ∧
      cx6exch.input ≠ cx6exch.output ∧ ¬ isBackgroundDb cx6root.key.1 ∧
      actToExpression cx6Model 1 cx6root = .ok (SExpr.num 0, []) := by
  refine ⟨List.mem_cons_self _ _, rfl, by decide, by decide, ?_⟩
  show recFunc cx6Model 1 cx6root [] = _
  rw [recFunc_succ]
  norm_num [foldExchs, cx6root, cx6exch, Amount.toExpr?, SExpr.sdiv]

/-! Witness fixture for the amended C6: a static self-referencing exchange. -/

def w6key : ActKey := ("fg", "w6")

def w6out : ActKey := ("fg", "o6")

def w6exch : Exchange := ⟨w6key, w6out, 1, .num 1⟩

def w6root : ActData := ⟨w6key, "w6root", [w6exch]⟩

def w6Model : Model := [(w6key, w6root)]

/-- Witness for the amended C6: the static direct self-reference raises the
`RecursionError`-kind failure. -/
theorem recursive_exchange_error_witness :
    recFunc w6Model 1 w6root [] = .error .recursiveExchange :=
  recursive_exchange_error w6Model w6root 0 [] [] w6exch []
    rfl rfl rfl (by decide) (by decide) (.num 0) 1 [] rfl

/-! ### Batch evaluation of compiled functions (`postMultiLCAAlgebric`)

The compiled lambdas of `preMultiLCAAlgebric` are parameter-only sympy
expressions turned into vectorized numpy functions; we keep them as `SExpr`
values and give them their numeric semantics directly.  Parameter values may
be scalars, Python lists, or other sequence types (tuples, arrays) — only
`isinstance(val, list)` participates in the shape check. -/

/-- Impact method triple; its display name is `method[1] + " - " + method[2]`
(line 105). -/
abbrev Method := String × String × String

def method_name (method : Method) : String := method.2.1 ++ " - " ++ method.2.2

/-- A parameter value as supplied to `postMultiLCAAlgebric`: a scalar number,
a Python `list` of numbers, or another sequence type (tuple/array) of
numbers, which the `isinstance(val, list)` test does not recognize. -/
inductive PValue where
  | num (q : ℚ)
  | vlist (qs : List ℚ)
  | vtuple (qs : List ℚ)
  deriving DecidableEq, Repr

/-- Failure kinds of the evaluation pipeline: the shape-mismatch raise of
line 133, the unknown-parameter raise of line 167 (and of the external
`_completeParamValues`), and a failed numeric evaluation. -/
inductive EvalErr where
  | shapeMismatch
  | unknownParam
  | evalFail
  deriving DecidableEq, Repr

/-- Modelled from the spec: one entry of the external parameter registry
(`_param_registry()`, missing `params.py`): canonical name, the expanded
names `param.names()` (for enum parameters all sub-names, else the name
itself), and the default value. -/
structure ParamDef where
  name : String
  subNames : List String
  default : ℚ
  deriving DecidableEq, Repr

/-- Modelled from the spec: the process-wide parameter registry, a dict keyed
by canonical parameter name (so names are unique). -/
abbrev Registry := List ParamDef

def alookup {α : Type} : List (String × α) → String → Option α
  | [], _ => none
  | p :: rest, k => if p.1 = k then some p.2 else alookup rest k

/-- `_param_registry()[name]`. -/
def lookupParam (reg : Registry) (n : String) : Option ParamDef :=
  match reg with
  | [] => none
  | p :: rest => if p.name = n then some p else lookupParam rest n

/-- Whether a (possibly expanded) parameter name is known to the registry. -/
def nameKnown (reg : Registry) (n : String) : Bool :=
  reg.any fun p => p.subNames.contains n

/-- Modelled from the spec: `_completeParamValues(params)` from the external
parameter-registry collaborator — it validates every supplied name against
the registry (raising the Unknown-Parameter condition for unrecognized
names) and passes the values through. -/
def completeParamValues (reg : Registry) (params : List (String × PValue)) :
    Except EvalErr (List (String × PValue)) :=
  if params.all (fun kv => nameKnown reg kv.1) then .ok params else .error .unknownParam

/-- Lines 126–133: scan the supplied values; every `list` value must have the
current `param_length` (initially 1; the first list seen while it is 1 sets
it), else the shape-mismatch exception is raised. -/
def paramLengthGo : ℕ → List (String × PValue) → Except EvalErr ℕ
  | n, [] => .ok n
  | n, kv :: rest =>
    match kv.2 with
    | PValue.vlist qs =>
      if n = 1 then paramLengthGo qs.length rest
      else if n ≠ qs.length then .error .shapeMismatch
      else paramLengthGo n rest
    | _ => paramLengthGo n rest

def paramLength (params : List (String × PValue)) : Except EvalErr ℕ :=
  paramLengthGo 1 params

/-- Lines 136–140: values that are not Python lists are replicated
`param_length` times; list values pass through as numeric vectors. -/
def expandVal (n : ℕ) : PValue → List PValue
  | PValue.vlist qs => qs.map PValue.num
  | v => List.replicate n v

/-- numpy broadcast indexing into an expanded parameter vector: a length-1
vector provides its single element at every index; a non-numeric element
(nested sequence) cannot be consumed. -/
def vGet (vs : List PValue) (i : ℕ) : Option ℚ :=
  match (if vs.length = 1 then vs[0]? else vs[i]?) with
  | some (PValue.num q) => some q
  | _ => none

/-- Scalar semantics of a compiled (lambdified) parameter-only expression. -/
def evalS : SExpr → (String → Option ℚ) → Option ℚ
  | .num q, _ => some q
  | .param p, env => env p
  | .actSym _, _ => none
  | .add a b, env =>
    match evalS a env, evalS b env with
    | some x, some y => some (x + y)
    | _, _ => none
  | .mul a b, env =>
    match evalS a env, evalS b env with
    | some x, some y => some (x * y)
    | _, _ => none
  | .div a b, env =>
    match evalS a env, evalS b env with
    | some x, some y => some (x / y)
    | _, _ => none

/-- Line 146 for one method: `alpha * lambd(**params)` evaluated across the
sample indices (numpy evaluates the whole vector elementwise). -/
def evalVecF (alpha : ℚ) (lam : SExpr) (env : ℕ → String → Option ℚ) :
    List ℕ → Except EvalErr (List ℚ)
  | [] => .ok []
  | i :: is =>
    match evalS lam (env i) with
    | some q =>
      match evalVecF alpha lam env is with
      | .error e => .error e
      | .ok qs => .ok (alpha * q :: qs)
    | none => .error .evalFail

/-- Lines 145–146: one result row per method. -/
def evalCols (alpha : ℚ) (env : ℕ → String → Option ℚ) :
    List SExpr → List ℕ → Except EvalErr (List (List ℚ))
  | [], _ => .ok []
  | lam :: ls, is =>
    match evalVecF alpha lam env is with
    | .error e => .error e
    | .ok c =>
      match evalCols alpha env ls is with
      | .error e => .error e
      | .ok cs => .ok (c :: cs)

/-- A pandas row label: the default integer index, or a name set by
`df.rename(index={0: model_name})`. -/
inductive RowLabel where
  | idx (i : ℕ)
  | named (s : String)
  deriving DecidableEq, Repr

/-- The transposed result DataFrame of line 148: method display names as
columns, one labelled row per parameter sample. -/
structure Table where
  cols : List String
  rows : List (RowLabel × List ℚ)
  deriving DecidableEq, Repr

/-- Environment giving sample `i` of each expanded parameter. -/
def paramEnv (expanded : List (String × List PValue)) (i : ℕ) (p : String) : Option ℚ :=
  match alookup expanded p with
  | some vs => vGet vs i
  | none => none

/-- `postMultiLCAAlgebric(methods, lambdas, alpha, **params)` (lines 111–148):
complete/validate the parameter values, determine the sample count, broadcast,
evaluate every method's compiled function across all samples, and lay the
result out as a samples × methods table. -/
def postMultiLCAAlgebric (reg : Registry) (methods : List Method) (lambdas : List SExpr)
    (alpha : ℚ) (params0 : List (String × PValue)) : Except EvalErr Table :=
  match completeParamValues reg params0 with
  | .error e => .error e
  | .ok params =>
    match paramLength params with
    | .error e => .error e
    | .ok n =>
      let expanded := params.map fun kv => (kv.1, expandVal n kv.2)
      match evalCols alpha (paramEnv expanded) lambdas (List.range n) with
      | .error e => .error e
      | .ok cols =>
        .ok ⟨methods.map method_name,
          (List.range n).map fun i => (RowLabel.idx i, cols.map fun c => c.getD i 0)⟩

/-! ### Multi-model orchestration (`multiLCAAlgebric`, lines 151–229) -/

/-- `_expanded_names_to_names(param_names)` (lines 156–169): map expanded
names back to canonical parameter names, raising for names no registry
parameter knows. -/
def expanded_names_to_names (reg : Registry) (param_names : List String) :
    Except EvalErr (List String) :=
  if param_names.all (nameKnown reg) then
    .ok ((reg.filter fun p => p.subNames.any fun nm => param_names.contains nm).map
      ParamDef.name)
  else .error .unknownParam

/-- A model after the preparation stage: `_actName(model)`, the scale factor
`alpha` from a `(model, alpha)` pair (default 1), and the output of
`preMultiLCAAlgebric` — compiled per-method lambdas and the expected
parameter names.  The preparation itself performs the external background LCA
solve, outside this core's claims. -/
structure PreparedModel where
  name : String
  lambdas : List SExpr
  expected_names : List String
  alpha : ℚ

/-- Lines 200–204: every expected parameter missing from the params dict is
inserted at the end with its registry default (the dict mutation persists to
later models). -/
def fillDefaults (reg : Registry) :
    List String → List (String × PValue) → Except EvalErr (List (String × PValue))
  | [], params => .ok params
  | e :: rest, params =>
    if (alookup params e).isSome then fillDefaults reg rest params
    else
      match lookupParam reg e with
      | some pd => fillDefaults reg rest (params ++ [(e, PValue.num pd.default)])
      | none => .error .unknownParam

/-- Line 220: `df.rename(index={0: model_name})`. -/
def rename0 (name : String) (t : Table) : Table :=
  ⟨t.cols, t.rows.map fun r => if r.1 = RowLabel.idx 0 then (RowLabel.named name, r.2) else r⟩

/-- One iteration of the model loop of `multiLCAAlgebric` (lines 195–222):
fill defaults for missing expected parameters, filter the dict down to the
required ones, batch-evaluate, and relabel a single-row result with the model
name.  Returns the table together with the mutated shared params dict. -/
def runOneModel (reg : Registry) (methods : List Method) (pm : PreparedModel)
    (params : List (String × PValue)) :
    Except EvalErr (Table × List (String × PValue)) :=
  match expanded_names_to_names reg pm.expected_names with
  | .error e => .error e
  | .ok expected =>
    match fillDefaults reg expected params with
    | .error e => .error e
    | .ok params1 =>
      let filtered := params1.filter fun kv => expected.contains kv.1
      match postMultiLCAAlgebric reg methods pm.lambdas pm.alpha filtered with
      | .error e => .error e
      | .ok df =>
        .ok (if df.rows.length = 1 then rename0 pm.name df else df, params1)

/-- `dfs[model_name] = df`: Python dict insertion — an existing key keeps its
position and gets the new value, a new key is appended. -/
def dictInsert (dfs : List (String × Table)) (k : String) (v : Table) :
    List (String × Table) :=
  if dfs.any fun kv => kv.1 = k then
    dfs.map fun kv => if kv.1 = k then (k, v) else kv
  else dfs ++ [(k, v)]

/-- `pd.concat(list(dfs.values()))`: stack all rows (columns agree across
models since the methods agree). -/
def concatTables (ts : List Table) : Table :=
  ⟨(ts.head?.map Table.cols).getD [], ts.foldr (fun t acc => t.rows ++ acc) []⟩

/-- The model loop and final assembly of `multiLCAAlgebric` (lines 184–229):
accumulate per-model tables in a dict keyed by the model display name, then
return the single table or the concatenation. -/
def multiLCAAlgebricGo (reg : Registry) (methods : List Method) :
    List PreparedModel → List (String × PValue) → List (String × Table) →
    Except EvalErr Table
  | [], _, dfs =>
    match dfs with
    | [kv] => .ok kv.2
    | _ => .ok (concatTables (dfs.map Prod.snd))
  | pm :: rest, params, dfs =>
    match runOneModel reg methods pm params with
    | .error e => .error e
    | .ok r => multiLCAAlgebricGo reg methods rest r.2 (dictInsert dfs pm.name r.1)

/-- `multiLCAAlgebric(models, methods, **params)` over prepared models. -/
def multiLCAAlgebric (reg : Registry) (methods : List Method)
    (models : List PreparedModel) (params : List (String × PValue)) :
    Except EvalErr Table :=
  multiLCAAlgebricGo reg methods models params []

instance {ε α : Type} [DecidableEq ε] [DecidableEq α] : DecidableEq (Except ε α) :=
  fun a b =>
    match a, b with
    | .error e1, .error e2 => decidable_of_iff (e1 = e2) (by simp)
    | .ok v1, .ok v2 => decidable_of_iff (v1 = v2) (by simp)
    | .error _, .ok _ => isFalse (fun h => by cases h)
    | .ok _, .error _ => isFalse (fun h => by cases h)

/-! ### Only Python lists participate in the shape check (C10) -/

/-- `isinstance(val, list)` (lines 129 and 138). -/
def PValue.isList : PValue → Bool
  | PValue.vlist _ => true
  | _ => false

theorem paramLengthGo_no_lists {params : List (String × PValue)}
    (h : ∀ kv ∈ params, kv.2.isList = false) :
    ∀ n, paramLengthGo n params = .ok n := by
  induction params with
  | nil => intro n; rfl
  | cons kv rest ih =>
    intro n
    rw [paramLengthGo]
    have hrest : ∀ x ∈ rest, x.2.isList = false := fun x hx =>
      h x (List.mem_cons_of_mem _ hx)
    cases hv : kv.2 with
    | num q => exact ih hrest n
    | vlist qs =>
      have := h kv (List.mem_cons_self _ _)
      rw [hv] at this
      cases this
    | vtuple qs => exact ih hrest n

/-- C10: values that are not Python lists — tuples/arrays included — do not
participate in the equal-length check (`param_length` stays 1, so no
ShapeMismatch is raised at validation even for differing lengths), and the
broadcast step treats them like scalars, replicating them `param_length`
times. -/
theorem non_list_sequences_not_shape_checked
    (params : List (String × PValue)) (n : ℕ)
    (hnl : ∀ kv ∈ params, kv.2.isList = false) :
    paramLength params = .ok 1 ∧
      (∀ qs, expandVal n (PValue.vtuple qs) = List.replicate n (PValue.vtuple qs)) :=
  ⟨paramLengthGo_no_lists hnl 1, fun _ => rfl⟩

/-- Witness for C10: two tuple values of differing lengths (3 and 2) pass the
validation with `param_length = 1`. -/
theorem non_list_sequences_not_shape_checked_witness :
    paramLength [("a", PValue.vtuple [1, 2, 3]), ("b", PValue.vtuple [1, 2])] = .ok 1 ∧
      (∀ qs, expandVal 2 (PValue.vtuple qs) = List.replicate 2 (PValue.vtuple qs)) :=
  non_list_sequences_not_shape_checked _ 2 (by decide)

/-! ### Unknown parameter names are fatal (C8) -/

/-- C8: a requested (expected) parameter name with no registry entry makes
`_expanded_names_to_names` raise, failing the model's evaluation — and with
it the whole `multiLCAAlgebric` call — with the UnknownParameter-kind error. -/
theorem unknown_parameter_fatal
    (reg : Registry) (methods : List Method) (pm : PreparedModel)
    (rest : List PreparedModel) (params : List (String × PValue)) (n : String)
    (hn : n ∈ pm.expected_names) (hunk : nameKnown reg n = false) :
    expanded_names_to_names reg pm.expected_names = .error .unknownParam ∧
      runOneModel reg methods pm params = .error .unknownParam ∧
      multiLCAAlgebric reg methods (pm :: rest) params = .error .unknownParam := by
  have hall : pm.expected_names.all (nameKnown reg) = false := by
    rw [List.all_eq_false]
    exact ⟨n, hn, by rw [hunk]; exact Bool.false_ne_true⟩
  have h1 : expanded_names_to_names reg pm.expected_names = .error .unknownParam := by
    unfold expanded_names_to_names
    rw [hall]
    rfl
  have h2 : runOneModel reg methods pm params = .error .unknownParam := by
    unfold runOneModel
    rw [h1]
  refine ⟨h1, h2, ?_⟩
  unfold multiLCAAlgebric multiLCAAlgebricGo
  rw [h2]

/-- Witness for C8: a model expecting the unregistered name `q` fails with
the UnknownParameter-kind error. -/
theorem unknown_parameter_fatal_witness :
    expanded_names_to_names [⟨"p", ["p"], 3⟩] ["q"] = .error .unknownParam ∧
      runOneModel [⟨"p", ["p"], 3⟩] [("m", "cc", "gwp")]
        ⟨"M", [], ["q"], 1⟩ [] = .error .unknownParam ∧
      multiLCAAlgebric [⟨"p", ["p"], 3⟩] [("m", "cc", "gwp")]
        [⟨"M", [], ["q"], 1⟩] [] = .error .unknownParam :=
  unknown_parameter_fatal [⟨"p", ["p"], 3⟩] [("m", "cc", "gwp")] ⟨"M", [], ["q"], 1⟩
    [] [] "q" (by decide) (by decide)

/-! ### Same display name: the dict of per-model tables overwrites (C9) -/

/-- C9: `multiLCAAlgebric` keys per-model result tables by the model display
name before concatenation, so when two models share a display name the second
model's table replaces the first and the output is just the second table —
not one row group per model. -/
theorem same_name_models_overwrite
    (reg : Registry) (methods : List Method) (pm1 pm2 : PreparedModel)
    (params params1 params2 : List (String × PValue)) (df1 df2 : Table)
    (h1 : runOneModel reg methods pm1 params = .ok (df1, params1))
    (h2 : runOneModel reg methods pm2 params1 = .ok (df2, params2))
    (hname : pm1.name = pm2.name) :
    multiLCAAlgebric reg methods [pm1, pm2] params = .ok df2 := by
  unfold multiLCAAlgebric
  rw [multiLCAAlgebricGo, h1]
  dsimp only
  rw [multiLCAAlgebricGo, h2]
  dsimp only
  have hd1 : dictInsert [] pm1.name df1 = [(pm1.name, df1)] := rfl
  rw [hd1]
  have hd2 : dictInsert [(pm1.name, df1)] pm2.name df2 = [(pm2.name, df2)] := by
    unfold dictInsert
    rw [hname]
    simp
  rw [hd2]
  rfl

/-! Witness fixture for C9: two prepared models both displayed as `M`. -/

def w9pm1 : PreparedModel := ⟨"M", [], [], 1⟩

def w9pm2 : PreparedModel := ⟨"M", [], [], 2⟩

def w9df : Table := ⟨["cc - gwp"], [(RowLabel.named "M", [])]⟩

/-- Witness for C9: with two same-named models the output is the second
model's single table. -/
theorem same_name_models_overwrite_witness :
    multiLCAAlgebric [] [("m", "cc", "gwp")] [w9pm1, w9pm2] [] = .ok w9df :=
  same_name_models_overwrite [] [("m", "cc", "gwp")] w9pm1 w9pm2 [] [] [] w9df w9df
    (by decide) (by decide) rfl

/-! ### Exact shape-mismatch condition (C4) -/

/-- The lengths of the Python-list values, in dict order. -/
def listLens (params : List (String × PValue)) : List ℕ :=
  params.filterMap fun kv =>
    match kv.2 with
    | PValue.vlist qs => some qs.length
    | _ => none

/-- A length sequence the scan of lines 128–133 rejects: after the leading
run of length-1 lists, some later list length differs from the first
remaining one. -/
def badLensB (ls : List ℕ) : Bool :=
  match ls.dropWhile (fun x => x == 1) with
  | [] => false
  | L :: ls' => ls'.any fun x => x != L

/-- The supplied values trip the shape-mismatch scan. -/
def MismatchedLists (params : List (String × PValue)) : Prop :=
  badLensB (listLens params) = true

instance (params : List (String × PValue)) : Decidable (MismatchedLists params) := by
  unfold MismatchedLists; infer_instance

theorem listLens_cons_list (k : String) (qs : List ℚ) (rest : List (String × PValue)) :
    listLens ((k, PValue.vlist qs) :: rest) = qs.length :: listLens rest := by
  simp [listLens, List.filterMap_cons]

theorem listLens_cons_num (k : String) (q : ℚ) (rest : List (String × PValue)) :
    listLens ((k, PValue.num q) :: rest) = listLens rest := by
  simp [listLens, List.filterMap_cons]

theorem listLens_cons_tuple (k : String) (qs : List ℚ) (rest : List (String × PValue)) :
    listLens ((k, PValue.vtuple qs) :: rest) = listLens rest := by
  simp [listLens, List.filterMap_cons]

theorem paramLengthGo_ne_one {n : ℕ} (hn : n ≠ 1) :
    ∀ l, paramLengthGo n l = .error .shapeMismatch ↔ ∃ x ∈ listLens l, x ≠ n := by
  intro l
  induction l with
  | nil =>
    constructor
    · intro h; cases h
    · rintro ⟨x, hx, _⟩; simp [listLens] at hx
  | cons kv rest ih =>
    obtain ⟨k, v⟩ := kv
    rw [paramLengthGo]
    cases v with
    | num q => rw [listLens_cons_num]; exact ih
    | vtuple qs => rw [listLens_cons_tuple]; exact ih
    | vlist qs =>
      rw [listLens_cons_list]
      dsimp only
      rw [if_neg hn]
      by_cases hq : n = qs.length
      · rw [if_neg (by omega)]
        constructor
        · intro h
          obtain ⟨x, hx, hxn⟩ := ih.mp h
          exact ⟨x, List.mem_cons_of_mem _ hx, hxn⟩
        · rintro ⟨x, hx, hxn⟩
          rcases List.mem_cons.mp hx with rfl | hx'
          · omega
          · exact ih.mpr ⟨x, hx', hxn⟩
      · rw [if_pos (by omega)]
        constructor
        · intro _
          exact ⟨qs.length, List.mem_cons_self _ _, by omega⟩
        · intro _; rfl

theorem paramLength_error_iff :
    ∀ params, paramLength params = .error .shapeMismatch ↔ MismatchedLists params := by
  intro params
  show paramLengthGo 1 params = _ ↔ _
  induction params with
  | nil =>
    constructor
    · intro h; cases h
    · intro h; simp [MismatchedLists, badLensB, listLens] at h
  | cons kv rest ih =>
    obtain ⟨k, v⟩ := kv
    rw [paramLengthGo]
    cases v with
    | num q =>
      unfold MismatchedLists
      rw [listLens_cons_num]
      exact ih
    | vtuple qs =>
      unfold MismatchedLists
      rw [listLens_cons_tuple]
      exact ih
    | vlist qs =>
      unfold MismatchedLists
      rw [listLens_cons_list]
      dsimp only
      rw [if_pos rfl]
      by_cases hq : qs.length = 1
      · rw [hq]
        unfold MismatchedLists at ih
        rw [show badLensB (1 :: listLens rest) = badLensB (listLens rest) from by
          simp [badLensB, List.dropWhile_cons]]
        exact ih
      · rw [show badLensB (qs.length :: listLens rest)
            = (listLens rest).any (fun x => x != qs.length) from by
          simp [badLensB, List.dropWhile_cons, hq]]
        rw [paramLengthGo_ne_one hq]
        simp

/-- C4 amended: the batch-evaluation shape check fails — with the
ShapeMismatch-kind error, before any compiled function is evaluated (the
result does not depend on the lambdas) — exactly when, among the supplied
Python-list values in dict order, after the leading run of length-1 lists a
later list's length differs from the first remaining list's length.  In
particular all-equal-length vectors pass, no list values give `N = 1`, and
the spec instance `{a:[1,2,3], b:[1,2]}` fails; but differing lengths alone
are not sufficient: `{a:[1], b:[1,2]}` is accepted
(`shape_mismatch_not_raised_on_unequal_vectors`). -/
theorem shape_mismatch_characterization
    (reg : Registry) (methods : List Method) (lambdas : List SExpr) (alpha : ℚ)
    (params : List (String × PValue))
    (hknown : params.all (fun kv => nameKnown reg kv.1) = true) :
    (paramLength params = .error .shapeMismatch ↔ MismatchedLists params) ∧
      (MismatchedLists params →
        postMultiLCAAlgebric reg methods lambdas alpha params = .error .shapeMismatch) ∧
      ((∀ kv ∈ params, kv.2.isList = false) → paramLength params = .ok 1) ∧
      (∀ N, (∀ x ∈ listLens params, x = N) → ¬ MismatchedLists params) := by
  refine ⟨paramLength_error_iff params, ?_, fun h => paramLengthGo_no_lists h 1, ?_⟩
  · intro hbad
    unfold postMultiLCAAlgebric completeParamValues
    rw [if_pos hknown]
    dsimp only
    rw [(paramLength_error_iff params).mpr hbad]
  · intro N hN hbad
    unfold MismatchedLists badLensB at hbad
    have hsub : ∀ x ∈ (listLens params).dropWhile (fun x => x == 1), x = N := by
      intro x hx
      exact hN x ((List.dropWhile_sublist _).mem hx)
    cases hdw : (listLens params).dropWhile (fun x => x == 1) with
    | nil => rw [hdw] at hbad; cases hbad
    | cons L ls' =>
      rw [hdw] at hbad
      dsimp only at hbad
      obtain ⟨x, hx, hxL⟩ := List.any_eq_true.mp hbad
      have hxN : x = N := hsub x (hdw ▸ List.mem_cons_of_mem _ hx)
      have hLN : L = N := hsub L (hdw ▸ List.mem_cons_self _ _)
      rw [hxN, hLN] at hxL
      simp at hxL

/-! Fixtures for C4: the registry knows `a` and `b`. -/

def cx4reg : Registry := [⟨"a", ["a"], 0⟩, ⟨"b", ["b"], 0⟩]

def cx4params : List (String × PValue) := [("a", PValue.vlist [1]), ("b", PValue.vlist [1, 2])]

def w4params : List (String × PValue) :=
  [("a", PValue.vlist [1, 2, 3]), ("b", PValue.vlist [1, 2])]

/-- C4 counterexample: the two supplied sample vectors have differing lengths
(1 and 2), yet the call does not fail with ShapeMismatch — it evaluates and
returns a two-row table (the leading length-1 list re-arms the scan and is
then numpy-broadcast). -/
theorem shape_mismatch_not_raised_on_unequal_vectors :
    (1 : ℕ) ≠ 2 ∧
      postMultiLCAAlgebric cx4reg [("m", "cc", "gwp")] [SExpr.param "a"] 1 cx4params =
        .ok ⟨["cc - gwp"], [(RowLabel.idx 0, [1]), (RowLabel.idx 1, [1])]⟩ := by
  refine ⟨by decide, ?_⟩
  norm_num [postMultiLCAAlgebric, completeParamValues, cx4reg, cx4params, nameKnown,
    paramLength, paramLengthGo, expandVal, evalCols, evalVecF, evalS, paramEnv, alookup,
    vGet, method_name, show List.range 2 = [0, 1] from rfl,
    show ("cc" ++ " - " ++ "gwp" : String) = "cc - gwp" from rfl]

/-- Witness for the amended C4 at the spec instance `{a:[1,2,3], b:[1,2]}`:
the validation fails with ShapeMismatch whatever the compiled functions. -/
theorem shape_mismatch_characterization_witness :
    MismatchedLists w4params ∧
      postMultiLCAAlgebric cx4reg [("m", "cc", "gwp")] [SExpr.param "a"] 1 w4params =
        .error .shapeMismatch :=
  have h := shape_mismatch_characterization cx4reg [("m", "cc", "gwp")] [SExpr.param "a"]
    1 w4params (by decide)
  ⟨by decide, h.2.1 (by decide)⟩

/-! ### Vectorized batch evaluation equals per-sample scalar evaluation (C3) -/

/-- The `i`-th sample of a supplied value, extracted as a scalar. -/
def scalarAt : PValue → ℕ → ℚ
  | PValue.num q, _ => q
  | PValue.vlist qs, i => qs.getD i 0
  | PValue.vtuple qs, i => qs.getD i 0

/-- The params dict with every value replaced by its `i`-th sample scalar. -/
def sampleAt (i : ℕ) (params : List (String × PValue)) : List (String × PValue) :=
  params.map fun kv => (kv.1, PValue.num (scalarAt kv.2 i))

theorem alookup_map_val {α β : Type} (f : α → β) :
    ∀ (l : List (String × α)) (k : String),
      alookup (l.map fun kv => (kv.1, f kv.2)) k = (alookup l k).map f := by
  intro l
  induction l with
  | nil => intro k; rfl
  | cons p rest ih =>
    intro k
    rw [List.map_cons, alookup, alookup]
    by_cases hk : p.1 = k
    · rw [if_pos hk, if_pos hk]; rfl
    · rw [if_neg hk, if_neg hk]; exact ih k

theorem alookup_mem {α : Type} {l : List (String × α)} {k : String} {v : α}
    (h : alookup l k = some v) : (k, v) ∈ l := by
  induction l with
  | nil => cases h
  | cons p rest ih =>
    rw [alookup] at h
    by_cases hk : p.1 = k
    · rw [if_pos hk] at h
      have : p = (k, v) := by cases p; simp_all
      exact this ▸ List.mem_cons_self _ _
    · rw [if_neg hk] at h
      exact List.mem_cons_of_mem _ (ih h)

theorem evalS_congr {env1 env2 : String → Option ℚ} (h : ∀ p, env1 p = env2 p) :
    ∀ e : SExpr, evalS e env1 = evalS e env2 := by
  intro e
  induction e with
  | num q => rfl
  | param p => exact h p
  | actSym s => rfl
  | add a b iha ihb => rw [evalS, evalS, iha, ihb]
  | mul a b iha ihb => rw [evalS, evalS, iha, ihb]
  | div a b iha ihb => rw [evalS, evalS, iha, ihb]

theorem evalVecF_ok_shape {alpha : ℚ} {lam : SExpr} {env : ℕ → String → Option ℚ} :
    ∀ {is : List ℕ} {c : List ℚ}, evalVecF alpha lam env is = .ok c →
      c = is.map (fun i => alpha * (evalS lam (env i)).getD 0) ∧
        ∀ i ∈ is, (evalS lam (env i)).isSome = true := by
  intro is
  induction is with
  | nil =>
    intro c h
    cases h
    exact ⟨rfl, by intro i hi; cases hi⟩
  | cons i is' ih =>
    intro c h
    rw [evalVecF] at h
    cases he : evalS lam (env i) with
    | none => rw [he] at h; cases h
    | some q =>
      rw [he] at h
      dsimp only at h
      cases hr : evalVecF alpha lam env is' with
      | error e => rw [hr] at h; cases h
      | ok qs =>
        rw [hr] at h
        cases h
        obtain ⟨hshape, hsome⟩ := ih hr
        refine ⟨?_, ?_⟩
        · rw [List.map_cons, ← hshape, he]
          rfl
        · intro j hj
          rcases List.mem_cons.mp hj with rfl | hj'
          · rw [he]; rfl
          · exact hsome j hj'

theorem evalVecF_ok_of_some {alpha : ℚ} {lam : SExpr} {env : ℕ → String → Option ℚ} :
    ∀ (is : List ℕ), (∀ i ∈ is, (evalS lam (env i)).isSome = true) →
      evalVecF alpha lam env is = .ok (is.map fun i => alpha * (evalS lam (env i)).getD 0) := by
  intro is
  induction is with
  | nil => intro _; rfl
  | cons i is' ih =>
    intro hsome
    rw [evalVecF]
    obtain ⟨q, hq⟩ := Option.isSome_iff_exists.mp (hsome i (List.mem_cons_self _ _))
    rw [hq]
    dsimp only
    rw [ih (fun j hj => hsome j (List.mem_cons_of_mem _ hj))]
    rw [List.map_cons, hq]
    rfl

theorem evalCols_ok_shape {alpha : ℚ} {env : ℕ → String → Option ℚ} :
    ∀ {ls : List SExpr} {is : List ℕ} {cols : List (List ℚ)},
      evalCols alpha env ls is = .ok cols →
      cols = ls.map (fun lam => is.map fun i => alpha * (evalS lam (env i)).getD 0) ∧
        ∀ lam ∈ ls, ∀ i ∈ is, (evalS lam (env i)).isSome = true := by
  intro ls
  induction ls with
  | nil =>
    intro is cols h
    cases h
    exact ⟨rfl, by intro lam hl; cases hl⟩
  | cons lam ls' ih =>
    intro is cols h
    rw [evalCols] at h
    cases hv : evalVecF alpha lam env is with
    | error e => rw [hv] at h; cases h
    | ok c =>
      rw [hv] at h
      dsimp only at h
      cases hc : evalCols alpha env ls' is with
      | error e => rw [hc] at h; cases h
      | ok cs =>
        rw [hc] at h
        cases h
        obtain ⟨hcsh, hcsome⟩ := evalVecF_ok_shape hv
        obtain ⟨hsh, hsome⟩ := ih hc
        refine ⟨by rw [List.map_cons, ← hsh, ← hcsh], ?_⟩
        intro l hl i hi
        rcases List.mem_cons.mp hl with rfl | hl'
        · exact hcsome i hi
        · exact hsome l hl' i hi

theorem evalCols_ok_of_some {alpha : ℚ} {env : ℕ → String → Option ℚ} :
    ∀ (ls : List SExpr) (is : List ℕ),
      (∀ lam ∈ ls, ∀ i ∈ is, (evalS lam (env i)).isSome = true) →
      evalCols alpha env ls is =
        .ok (ls.map fun lam => is.map fun i => alpha * (evalS lam (env i)).getD 0) := by
  intro ls
  induction ls with
  | nil => intro is _; rfl
  | cons lam ls' ih =>
    intro is hsome
    rw [evalCols]
    rw [evalVecF_ok_of_some is (hsome lam (List.mem_cons_self _ _))]
    dsimp only
    rw [ih is (fun l hl => hsome l (List.mem_cons_of_mem _ hl))]
    rfl

theorem getD_map_range {α : Type} (f : ℕ → α) {n i : ℕ} (hi : i < n) (d : α) :
    (((List.range n).map f).getD i d) = f i := by
  rw [List.getD_eq_getElem?_getD, List.getElem?_map, List.getElem?_range hi]
  rfl

/-- Sample `i` of the expanded vector of a value equals its extracted scalar. -/
theorem vGet_expandVal {v : PValue} {n i : ℕ} (hi : i < n)
    (hv : (∃ q, v = PValue.num q) ∨ ∃ qs, v = PValue.vlist qs ∧ qs.length = n) :
    vGet (expandVal n v) i = some (scalarAt v i) := by
  rcases hv with ⟨q, rfl⟩ | ⟨qs, rfl, hlen⟩
  · unfold vGet expandVal scalarAt
    by_cases hn : n = 1
    · subst hn
      simp
    · rw [if_neg (by simpa using hn)]
      rw [List.getElem?_replicate]
      rw [if_pos hi]
  · unfold vGet expandVal scalarAt
    have hlm : (qs.map PValue.num).length = n := by simpa using hlen
    by_cases hn : n = 1
    · rw [if_pos (by omega : (qs.map PValue.num).length = 1)]
      have hi0 : i = 0 := by omega
      subst hi0
      have h0 : 0 < qs.length := by omega
      rw [List.getElem?_map, List.getElem?_eq_getElem h0]
      simp [List.getD_eq_getElem?_getD, List.getElem?_eq_getElem h0]
    · rw [if_neg (by omega : ¬ (qs.map PValue.num).length = 1)]
      have hiq : i < qs.length := by omega
      rw [List.getElem?_map, List.getElem?_eq_getElem hiq]
      simp [List.getD_eq_getElem?_getD, List.getElem?_eq_getElem hiq]

/-- The vector environment at sample `i` agrees with the scalar environment of
the `i`-th extracted sample. -/
theorem paramEnv_sample (params : List (String × PValue)) (n i : ℕ) (hi : i < n)
    (hvals : ∀ kv ∈ params, (∃ q, kv.2 = PValue.num q) ∨
      ∃ qs, kv.2 = PValue.vlist qs ∧ qs.length = n) :
    ∀ p, paramEnv (params.map fun kv => (kv.1, expandVal n kv.2)) i p =
      paramEnv ((sampleAt i params).map fun kv => (kv.1, expandVal 1 kv.2)) 0 p := by
  intro p
  unfold paramEnv sampleAt
  rw [alookup_map_val, List.map_map]
  have : (fun kv : String × PValue => (kv.1, expandVal 1 kv.2)) ∘
      (fun kv : String × PValue => (kv.1, PValue.num (scalarAt kv.2 i)))
      = fun kv : String × PValue => (kv.1, expandVal 1 (PValue.num (scalarAt kv.2 i))) := rfl
  rw [this, alookup_map_val (fun v => expandVal 1 (PValue.num (scalarAt v i))) params p]
  cases hl : alookup params p with
  | none => rfl
  | some v =>
    simp only [Option.map_some']
    rw [vGet_expandVal hi (hvals (p, v) (alookup_mem hl))]
    rfl

/-- C3: when all supplied values are scalars or lists of the common length
`N` recognized by the shape check, the batch evaluation returns exactly `N`
rows, and the cells of row `i` equal the cells of the (single-row) result of
a separate scalar evaluation at the `i`-th samples. -/
theorem vectorized_evaluation_equals_scalar
    (reg : Registry) (methods : List Method) (lambdas : List SExpr) (alpha : ℚ)
    (params : List (String × PValue)) (n : ℕ) (t : Table)
    (hvals : ∀ kv ∈ params, (∃ q, kv.2 = PValue.num q) ∨
      ∃ qs, kv.2 = PValue.vlist qs ∧ qs.length = n)
    (hn : paramLength params = .ok n)
    (ht : postMultiLCAAlgebric reg methods lambdas alpha params = .ok t) :
    t.rows.length = n ∧
      ∀ i < n, ∃ ti,
        postMultiLCAAlgebric reg methods lambdas alpha (sampleAt i params) = .ok ti ∧
        ti.rows.length = 1 ∧
        t.rows[i]?.map Prod.snd = ti.rows[0]?.map Prod.snd := by
  unfold postMultiLCAAlgebric at ht
  cases hall : params.all (fun kv => nameKnown reg kv.1) with
  | false =>
    rw [show completeParamValues reg params = .error .unknownParam from by
      unfold completeParamValues; rw [hall]; rfl] at ht
    cases ht
  | true =>
    rw [show completeParamValues reg params = .ok params from by
      unfold completeParamValues; rw [hall]; rfl] at ht
    dsimp only at ht
    rw [hn] at ht
    dsimp only at ht
    cases hec : evalCols alpha
        (paramEnv (params.map fun kv => (kv.1, expandVal n kv.2))) lambdas (List.range n) with
    | error e => rw [hec] at ht; cases ht
    | ok cols =>
      rw [hec] at ht
      cases ht
      obtain ⟨hcols, hsome⟩ := evalCols_ok_shape hec
      constructor
      · simp
      · intro i hi
        have henv := paramEnv_sample params n i hi hvals
        have hsomeS : ∀ lam ∈ lambdas,
            ∀ j ∈ List.range 1,
            (evalS lam (paramEnv ((sampleAt i params).map
              fun kv => (kv.1, expandVal 1 kv.2)) 0)).isSome = true := by
          intro lam hlam j _
          rw [← evalS_congr henv lam]
          exact hsome lam hlam i (List.mem_range.mpr hi)
        have hsall : (sampleAt i params).all (fun kv => nameKnown reg kv.1) = true := by
          unfold sampleAt
          rw [List.all_map]
          exact hall
        have hslen : paramLength (sampleAt i params) = .ok 1 := by
          refine paramLengthGo_no_lists ?_ 1
          intro kv hkv
          obtain ⟨kv0, _, rfl⟩ := List.mem_map.mp hkv
          rfl
        refine ⟨⟨methods.map method_name, (List.range 1).map fun j => (RowLabel.idx j,
            (lambdas.map fun lam => (List.range 1).map fun j' =>
              alpha * (evalS lam (paramEnv ((sampleAt i params).map fun kv =>
                (kv.1, expandVal 1 kv.2)) j')).getD 0).map fun c => c.getD j 0)⟩,
          ?_, ?_, ?_⟩
        · unfold postMultiLCAAlgebric
          rw [show completeParamValues reg (sampleAt i params) = .ok (sampleAt i params)
            from by unfold completeParamValues; rw [hsall]; rfl]
          dsimp only
          rw [hslen]
          dsimp only
          rw [evalCols_ok_of_some lambdas (List.range 1) ?_]
          · intro lam hlam j hj
            have hj0 : j = 0 := by simpa [List.mem_range, Nat.lt_one_iff] using hj
            subst hj0
            exact hsomeS lam hlam 0 (by simp)
        · simp
        · rw [hcols]
          have hrow : ((List.range n).map fun j => (RowLabel.idx j,
              (lambdas.map fun lam => (List.range n).map fun j' =>
                alpha * (evalS lam (paramEnv (params.map fun kv =>
                  (kv.1, expandVal n kv.2)) j')).getD 0).map
                fun c => c.getD j 0))[i]? = some (RowLabel.idx i,
              (lambdas.map fun lam => (List.range n).map fun j' =>
                alpha * (evalS lam (paramEnv (params.map fun kv =>
                  (kv.1, expandVal n kv.2)) j')).getD 0).map
                fun c => c.getD i 0) := by
            rw [List.getElem?_map, List.getElem?_range hi]
            rfl
          rw [hrow]
          have hrow0 : ((List.range 1).map fun j => (RowLabel.idx j,
              (lambdas.map fun lam => (List.range 1).map fun j' =>
                alpha * (evalS lam (paramEnv ((sampleAt i params).map fun kv =>
                  (kv.1, expandVal 1 kv.2)) j')).getD 0).map
                fun c => c.getD j 0))[0]? = some (RowLabel.idx 0,
              (lambdas.map fun lam => (List.range 1).map fun j' =>
                alpha * (evalS lam (paramEnv ((sampleAt i params).map fun kv =>
                  (kv.1, expandVal 1 kv.2)) j')).getD 0).map
                fun c => c.getD 0 0) := by
            rw [List.getElem?_map, List.getElem?_range (by omega : 0 < 1)]
            rfl
          rw [hrow0]
          simp only [Option.map_some']
          congr 1
          rw [List.map_map, List.map_map]
          refine List.map_congr_left ?_
          intro lam _
          dsimp only [Function.comp]
          rw [getD_map_range _ hi, getD_map_range _ (by omega : (0 : ℕ) < 1)]
          rw [evalS_congr henv lam]

/-! Witness fixture for C3: five samples of `a` and a scalar `b`. -/

def w3reg : Registry := [⟨"a", ["a"], 0⟩, ⟨"b", ["b"], 0⟩]

def w3params : List (String × PValue) :=
  [("a", PValue.vlist [1, 2, 3, 4, 5]), ("b", PValue.num 10)]

def w3t : Table :=
  ⟨["cc - gwp"], [(RowLabel.idx 0, [1]), (RowLabel.idx 1, [2]),
    (RowLabel.idx 2, [3]), (RowLabel.idx 3, [4]), (RowLabel.idx 4, [5])]⟩

/-- Witness for C3 at the spec's `N = 5` instance. -/
theorem vectorized_evaluation_equals_scalar_witness :
    w3t.rows.length = 5 ∧
      ∀ i < 5, ∃ ti,
        postMultiLCAAlgebric w3reg [("m", "cc", "gwp")] [SExpr.param "a"] 1
          (sampleAt i w3params) = .ok ti ∧
        ti.rows.length = 1 ∧
        w3t.rows[i]?.map Prod.snd = ti.rows[0]?.map Prod.snd :=
  vectorized_evaluation_equals_scalar w3reg [("m", "cc", "gwp")] [SExpr.param "a"] 1
    w3params 5 w3t
    (by
      intro kv hkv
      simp only [w3params, List.mem_cons, List.not_mem_nil, or_false] at hkv
      rcases hkv with rfl | rfl
      · exact Or.inr ⟨[1, 2, 3, 4, 5], rfl, rfl⟩
      · exact Or.inl ⟨10, rfl⟩)
    (by decide)
    (by norm_num [postMultiLCAAlgebric, completeParamValues, w3reg, w3params, nameKnown,
      paramLength, paramLengthGo, expandVal, evalCols, evalVecF, evalS, paramEnv, alookup,
      vGet, method_name, w3t, show List.range 5 = [0, 1, 2, 3, 4] from rfl,
      show ("cc" ++ " - " ++ "gwp" : String) = "cc - gwp" from rfl])

/-! ### Missing-parameter default substitution (C7) -/

theorem paramLengthGo_middle_scalar (p : String) (q : ℚ) :
    ∀ (l1 l2 : List (String × PValue)) (n : ℕ),
      paramLengthGo n (l1 ++ (p, PValue.num q) :: l2) = paramLengthGo n (l1 ++ l2) := by
  intro l1
  induction l1 with
  | nil => intro l2 n; rfl
  | cons kv rest ih =>
    intro l2 n
    rw [List.cons_append, List.cons_append, paramLengthGo, paramLengthGo]
    cases kv.2 with
    | num q0 => exact ih l2 n
    | vtuple qs => exact ih l2 n
    | vlist qs =>
      dsimp only
      by_cases h1 : n = 1
      · rw [if_pos h1, if_pos h1]
        exact ih l2 qs.length
      · rw [if_neg h1, if_neg h1]
        by_cases h2 : n ≠ qs.length
        · rw [if_pos h2, if_pos h2]
        · rw [if_neg h2, if_neg h2]
          exact ih l2 n

theorem alookup_append {α : Type} :
    ∀ (l1 l2 : List (String × α)) (k : String),
      alookup (l1 ++ l2) k =
        match alookup l1 k with
        | some v => some v
        | none => alookup l2 k := by
  intro l1
  induction l1 with
  | nil => intro l2 k; rfl
  | cons kv rest ih =>
    intro l2 k
    rw [List.cons_append, alookup, alookup]
    by_cases hk : kv.1 = k
    · rw [if_pos hk, if_pos hk]
    · rw [if_neg hk, if_neg hk]
      exact ih l2 k

theorem alookup_middle_scalar {α : Type} {p : String} {v : α} {l1 l2 : List (String × α)}
    (hp : alookup l1 p = none) :
    ∀ k, alookup (l1 ++ (p, v) :: l2) k = alookup ((p, v) :: (l1 ++ l2)) k := by
  intro k
  rw [show alookup ((p, v) :: (l1 ++ l2)) k
      = if p = k then some v else alookup (l1 ++ l2) k from rfl]
  rw [alookup_append l1 ((p, v) :: l2) k, alookup_append l1 l2 k]
  cases halk : alookup l1 k with
  | some w =>
    dsimp only
    have hk : p ≠ k := by
      intro hc
      rw [hc, halk] at hp
      cases hp
    rw [if_neg hk]
  | none =>
    dsimp only
    rw [show alookup ((p, v) :: l2) k = if p = k then some v else alookup l2 k from rfl]

theorem evalVecF_congr {alpha : ℚ} {lam : SExpr} {env1 env2 : ℕ → String → Option ℚ}
    (h : ∀ i s, env1 i s = env2 i s) :
    ∀ is, evalVecF alpha lam env1 is = evalVecF alpha lam env2 is := by
  intro is
  induction is with
  | nil => rfl
  | cons i is' ih =>
    rw [evalVecF, evalVecF, evalS_congr (h i) lam, ih]

theorem evalCols_congr {alpha : ℚ} {env1 env2 : ℕ → String → Option ℚ}
    (h : ∀ i s, env1 i s = env2 i s) :
    ∀ ls is, evalCols alpha env1 ls is = evalCols alpha env2 ls is := by
  intro ls
  induction ls with
  | nil => intro is; rfl
  | cons lam ls' ih =>
    intro is
    rw [evalCols, evalCols, evalVecF_congr h is, ih is]

/-- Moving a scalar binding from the middle of the params dict to the front
does not change the batch evaluation result (no list, so the shape scan is
unaffected; lookups are unaffected because the name is not bound earlier). -/
theorem post_move_scalar
    (reg : Registry) (methods : List Method) (lambdas : List SExpr) (alpha : ℚ)
    (p : String) (q : ℚ) (l1 l2 : List (String × PValue))
    (hp : alookup l1 p = none) :
    postMultiLCAAlgebric reg methods lambdas alpha (l1 ++ (p, PValue.num q) :: l2) =
      postMultiLCAAlgebric reg methods lambdas alpha ((p, PValue.num q) :: (l1 ++ l2)) := by
  unfold postMultiLCAAlgebric completeParamValues
  have hall : ((l1 ++ (p, PValue.num q) :: l2).all fun kv => nameKnown reg kv.1)
      = (((p, PValue.num q) :: (l1 ++ l2)).all fun kv => nameKnown reg kv.1) := by
    simp only [List.all_append, List.all_cons]
    rw [Bool.and_left_comm]
  rw [hall]
  by_cases hv : (((p, PValue.num q) :: (l1 ++ l2)).all fun kv => nameKnown reg kv.1) = true
  · rw [if_pos hv, if_pos hv]
    dsimp only
    have hlen : paramLength (l1 ++ (p, PValue.num q) :: l2) = paramLength (l1 ++ l2) :=
      paramLengthGo_middle_scalar p q l1 l2 1
    have hlen2 : paramLength ((p, PValue.num q) :: (l1 ++ l2)) = paramLength (l1 ++ l2) := rfl
    rw [hlen, hlen2]
    cases hn : paramLength (l1 ++ l2) with
    | error e => rfl
    | ok n =>
      dsimp only
      have henv : ∀ i s,
          paramEnv ((l1 ++ (p, PValue.num q) :: l2).map fun kv => (kv.1, expandVal n kv.2)) i s
            = paramEnv (((p, PValue.num q) :: (l1 ++ l2)).map
                fun kv => (kv.1, expandVal n kv.2)) i s := by
        intro i s
        unfold paramEnv
        rw [List.map_append, List.map_cons, List.map_cons, List.map_append]
        have hp' : alookup (l1.map fun kv => (kv.1, expandVal n kv.2)) p = none := by
          rw [alookup_map_val (expandVal n) l1 p, hp]
          rfl
        rw [alookup_middle_scalar hp' s]
      rw [evalCols_congr henv lambdas (List.range n)]
  · rw [if_neg hv, if_neg hv]

/-- The registry default of a parameter name (line 202). -/
def regDefault (reg : Registry) (e : String) : ℚ :=
  match lookupParam reg e with
  | some pd => pd.default
  | none => 0

theorem alookup_append_single_ne {α : Type} (params : List (String × α)) (e x : String)
    (v : α) (hne : e ≠ x) :
    alookup (params ++ [(e, v)]) x = alookup params x := by
  rw [alookup_append]
  cases alookup params x with
  | some w => rfl
  | none =>
    dsimp only
    rw [alookup, if_neg hne]
    rfl

/-- The default-filling loop appends, in expected order, one scalar default
binding per expected name missing from the dict. -/
theorem fillDefaults_eq (reg : Registry) :
    ∀ (expected : List String) (params : List (String × PValue)),
      expected.Nodup → (∀ e ∈ expected, (lookupParam reg e).isSome = true) →
      fillDefaults reg expected params = .ok (params ++
        ((expected.filter fun e => (alookup params e).isNone).map
          fun e => (e, PValue.num (regDefault reg e)))) := by
  intro expected
  induction expected with
  | nil => intro params _ _; simp [fillDefaults]
  | cons e rest ih =>
    intro params hnd hreg
    have hne : e ∉ rest := by
      rw [List.nodup_cons] at hnd
      exact hnd.1
    have hnd' : rest.Nodup := by
      rw [List.nodup_cons] at hnd
      exact hnd.2
    have hreg' : ∀ x ∈ rest, (lookupParam reg x).isSome = true := fun x hx =>
      hreg x (List.mem_cons_of_mem _ hx)
    rw [fillDefaults]
    cases halp : alookup params e with
    | some v =>
      rw [if_pos (by simp [halp])]
      rw [ih params hnd' hreg']
      have hfc : (e :: rest).filter (fun x => (alookup params x).isNone)
          = rest.filter (fun x => (alookup params x).isNone) := by
        rw [List.filter_cons]
        simp [halp]
      rw [hfc]
    | none =>
      rw [if_neg (by simp [halp])]
      obtain ⟨pd, hpd⟩ := Option.isSome_iff_exists.mp (hreg e (List.mem_cons_self _ _))
      rw [hpd]
      dsimp only
      rw [ih (params ++ [(e, PValue.num pd.default)]) hnd' hreg']
      have hfilter : rest.filter
            (fun x => (alookup (params ++ [(e, PValue.num pd.default)]) x).isNone)
          = rest.filter (fun x => (alookup params x).isNone) := by
        apply List.filter_congr
        intro x hx
        have hxe : e ≠ x := fun hc => hne (hc ▸ hx)
        rw [alookup_append_single_ne params e x _ hxe]
      rw [hfilter]
      have hfc : (e :: rest).filter (fun x => (alookup params x).isNone)
          = e :: rest.filter (fun x => (alookup params x).isNone) := by
        rw [List.filter_cons]
        simp [halp]
      rw [hfc, List.map_cons]
      rw [show regDefault reg e = pd.default from by unfold regDefault; rw [hpd]]
      rw [List.append_assoc]
      rfl

theorem mem_contains {l : List String} {a : String} (h : a ∈ l) : l.contains a = true :=
  List.elem_eq_true_of_mem h

theorem alookup_filter_none {α : Type} {params : List (String × α)} {p : String}
    (h : alookup params p = none) (f : String × α → Bool) :
    alookup (params.filter f) p = none := by
  induction params with
  | nil => rfl
  | cons kv rest ih =>
    rw [alookup] at h
    by_cases hk : kv.1 = p
    · rw [if_pos hk] at h
      cases h
    · rw [if_neg hk] at h
      rw [List.filter_cons]
      by_cases hf : f kv = true
      · rw [if_pos hf, alookup, if_neg hk]
        exact ih h
      · rw [if_neg hf]
        exact ih h

theorem alookup_map_keys_none {β : Type} {F : List String} {p : String}
    (h : p ∉ F) (g : String → β) :
    alookup (F.map fun e => (e, g e)) p = none := by
  induction F with
  | nil => rfl
  | cons e rest ih =>
    rw [List.map_cons, alookup]
    have hne : e ≠ p := fun hc => h (hc ▸ List.mem_cons_self _ _)
    rw [if_neg hne]
    exact ih (fun hc => h (List.mem_cons_of_mem _ hc))

/-- C7: evaluating a model without supplying an expected parameter `p` whose
registry default is `d` yields exactly the same result table as supplying
`p = d` explicitly — the missing parameter is recovered non-fatally by
inserting the registry default into the params dict before evaluation. -/
theorem missing_parameter_default_equivalence
    (reg : Registry) (methods : List Method) (pm : PreparedModel)
    (params : List (String × PValue)) (p : String) (pd : ParamDef)
    (expected : List String)
    (hexp : expanded_names_to_names reg pm.expected_names = .ok expected)
    (hnodup : expected.Nodup)
    (hreg : ∀ e ∈ expected, (lookupParam reg e).isSome = true)
    (hp : p ∈ expected)
    (hpd : lookupParam reg p = some pd)
    (hmiss : alookup params p = none) :
    (runOneModel reg methods pm params).map Prod.fst =
      (runOneModel reg methods pm ((p, PValue.num pd.default) :: params)).map Prod.fst := by
  unfold runOneModel
  rw [hexp]
  dsimp only
  rw [fillDefaults_eq reg expected params hnodup hreg]
  rw [fillDefaults_eq reg expected ((p, PValue.num pd.default) :: params) hnodup hreg]
  dsimp only
  -- the B-side missing set drops exactly `p`
  have hcondB : ∀ e ∈ expected,
      (alookup ((p, PValue.num pd.default) :: params) e).isNone
        = ((e != p) && (alookup params e).isNone) := by
    intro e _
    by_cases hep : e = p
    · subst hep
      rw [show alookup ((e, PValue.num pd.default) :: params) e
          = some (PValue.num pd.default) from by rw [alookup, if_pos rfl]]
      simp
    · rw [show alookup ((p, PValue.num pd.default) :: params) e = alookup params e from by
        rw [alookup, if_neg (fun hc => hep hc.symm)]]
      have hb : (e != p) = true := by simpa using hep
      rw [hb, Bool.true_and]
  have hfB : expected.filter
        (fun e => (alookup ((p, PValue.num pd.default) :: params) e).isNone)
      = (expected.filter fun e => (alookup params e).isNone).filter (fun e => e != p) := by
    rw [List.filter_filter]
    exact List.filter_congr hcondB
  rw [hfB]
  have hpA : p ∈ expected.filter (fun e => (alookup params e).isNone) :=
    List.mem_filter.mpr ⟨hp, by rw [hmiss]; rfl⟩
  obtain ⟨F1, F2, hsplit⟩ := List.append_of_mem hpA
  have hsubA : ∀ x ∈ expected.filter (fun e => (alookup params e).isNone), x ∈ expected :=
    fun x hx => (List.mem_filter.mp hx).1
  have hndA : (expected.filter (fun e => (alookup params e).isNone)).Nodup :=
    hnodup.filter _
  rw [hsplit] at hndA hsubA
  rw [List.nodup_append] at hndA
  have hpF1 : p ∉ F1 := fun hc => hndA.2.2 hc (List.mem_cons_self _ _)
  have hpF2 : p ∉ F2 := by
    have h2 := hndA.2.1
    rw [List.nodup_cons] at h2
    exact h2.1
  rw [hsplit]
  have hf1keep : F1.filter (fun e => e != p) = F1 :=
    List.filter_eq_self.mpr (fun x hx => by
      rw [bne_iff_ne]
      exact fun hc => hpF1 (hc ▸ hx))
  have hf2keep : F2.filter (fun e => e != p) = F2 :=
    List.filter_eq_self.mpr (fun x hx => by
      rw [bne_iff_ne]
      exact fun hc => hpF2 (hc ▸ hx))
  have hBfilt : (F1 ++ p :: F2).filter (fun e => e != p) = F1 ++ F2 := by
    rw [List.filter_append, List.filter_cons]
    simp only [bne_self_eq_false, Bool.false_eq_true, if_false]
    rw [hf1keep, hf2keep]
  rw [hBfilt]
  -- both filtered dicts, with the scalar default moved to the front on one side
  rw [List.map_append, List.map_cons, List.map_append]
  rw [show regDefault reg p = pd.default from by unfold regDefault; rw [hpd]]
  have hcontF1 : ∀ x ∈ F1, x ∈ expected := fun x hx =>
    hsubA x (List.mem_append_left _ hx)
  have hcontF2 : ∀ x ∈ F2, x ∈ expected := fun x hx =>
    hsubA x (List.mem_append_right _ (List.mem_cons_of_mem _ hx))
  have hkeepmap : ∀ (F : List String), (∀ x ∈ F, x ∈ expected) →
      (F.map fun e => (e, PValue.num (regDefault reg e))).filter
        (fun kv => expected.contains kv.1) = F.map fun e => (e, PValue.num (regDefault reg e)) := by
    intro F hF
    apply List.filter_eq_self.mpr
    intro kv hkv
    obtain ⟨x, hx, rfl⟩ := List.mem_map.mp hkv
    exact mem_contains (hF x hx)
  have hLfilt : ((params ++ (F1.map fun e => (e, PValue.num (regDefault reg e)))
        ++ (p, PValue.num pd.default) :: (F2.map fun e => (e, PValue.num (regDefault reg e)))).filter
          fun kv => expected.contains kv.1)
      = (params.filter fun kv => expected.contains kv.1)
        ++ (F1.map fun e => (e, PValue.num (regDefault reg e)))
        ++ (p, PValue.num pd.default) :: (F2.map fun e => (e, PValue.num (regDefault reg e))) := by
    rw [List.filter_append, List.filter_append, List.filter_cons]
    rw [hkeepmap F1 hcontF1, hkeepmap F2 hcontF2]
    rw [if_pos (by simpa using mem_contains hp)]
  have hRfilt : (((p, PValue.num pd.default) :: params
        ++ ((F1.map fun e => (e, PValue.num (regDefault reg e)))
          ++ (F2.map fun e => (e, PValue.num (regDefault reg e))))).filter
          fun kv => expected.contains kv.1)
      = (p, PValue.num pd.default) :: ((params.filter fun kv => expected.contains kv.1)
        ++ ((F1.map fun e => (e, PValue.num (regDefault reg e)))
          ++ (F2.map fun e => (e, PValue.num (regDefault reg e))))) := by
    rw [List.cons_append, List.filter_cons]
    rw [if_pos (by simpa using mem_contains hp)]
    rw [List.filter_append, List.filter_append]
    rw [hkeepmap F1 hcontF1, hkeepmap F2 hcontF2]
  rw [show params ++ ((F1.map fun e => (e, PValue.num (regDefault reg e)))
      ++ (p, PValue.num pd.default) :: (F2.map fun e => (e, PValue.num (regDefault reg e))))
      = params ++ (F1.map fun e => (e, PValue.num (regDefault reg e)))
        ++ (p, PValue.num pd.default) :: (F2.map fun e => (e, PValue.num (regDefault reg e)))
      from by rw [List.append_assoc]]
  rw [hLfilt, hRfilt]
  have hlookl1 : alookup ((params.filter fun kv => expected.contains kv.1)
      ++ (F1.map fun e => (e, PValue.num (regDefault reg e)))) p = none := by
    rw [alookup_append]
    rw [alookup_filter_none hmiss]
    exact alookup_map_keys_none hpF1 _
  rw [show (params.filter fun kv => expected.contains kv.1)
        ++ (F1.map fun e => (e, PValue.num (regDefault reg e)))
        ++ (p, PValue.num pd.default) :: (F2.map fun e => (e, PValue.num (regDefault reg e)))
      = ((params.filter fun kv => expected.contains kv.1)
        ++ (F1.map fun e => (e, PValue.num (regDefault reg e))))
        ++ (p, PValue.num pd.default) :: (F2.map fun e => (e, PValue.num (regDefault reg e)))
      from by rw [List.append_assoc]]
  rw [post_move_scalar reg methods pm.lambdas pm.alpha p pd.default _ _ hlookl1]
  rw [show ((params.filter fun kv => expected.contains kv.1)
        ++ (F1.map fun e => (e, PValue.num (regDefault reg e)))) ++
          (F2.map fun e => (e, PValue.num (regDefault reg e)))
      = (params.filter fun kv => expected.contains kv.1)
        ++ ((F1.map fun e => (e, PValue.num (regDefault reg e)))
          ++ (F2.map fun e => (e, PValue.num (regDefault reg e))))
      from by rw [List.append_assoc]]
  cases hpost : postMultiLCAAlgebric reg methods pm.lambdas pm.alpha
      ((p, PValue.num pd.default) :: ((params.filter fun kv => expected.contains kv.1)
        ++ ((F1.map fun e => (e, PValue.num (regDefault reg e)))
          ++ (F2.map fun e => (e, PValue.num (regDefault reg e)))))) with
  | error e => rfl
  | ok df => rfl

/-! Witness fixture for C7: registry default 3 for `p`. -/

def w7reg : Registry := [⟨"p", ["p"], 3⟩]

def w7pm : PreparedModel := ⟨"M", [SExpr.param "p"], ["p"], 1⟩

/-- Witness for C7: evaluating without `p` equals evaluating with `p = 3`
explicitly supplied. -/
theorem missing_parameter_default_equivalence_witness :
    (runOneModel w7reg [("m", "cc", "gwp")] w7pm []).map Prod.fst =
      (runOneModel w7reg [("m", "cc", "gwp")] w7pm [("p", PValue.num 3)]).map Prod.fst :=
  missing_parameter_default_equivalence w7reg [("m", "cc", "gwp")] w7pm [] "p"
    ⟨"p", ["p"], 3⟩ ["p"] rfl (by decide)
    (fun e he => by rw [List.mem_singleton.mp he]; rfl)
    (by decide) rfl rfl

end LcaAlg
